import Mathlib

/-!
# Verification of the Snapchat_pro job intake / scheduling / download core

Shallow embedding of the repository's three core modules, and proofs of the
specification claims about them:

* `src/rate_limiter.py`  — per-user sliding-window admission control
  (`RateLimiter.is_allowed`, `RateLimiter.get_user_stats`);
* `src/downloader.py`    — concurrent batch download with per-file size
  enforcement and an aggregate batch timeout
  (`DownloadManager.download_batch`, `DownloadManager._download_single`);
* `src/queue_manager.py` — job queue with a bounded set of concurrently
  active executions (`QueueManager`).

Timestamps are modelled as rationals (Python floats from `time.time()`),
byte counts and identifiers as naturals.  Fallible code paths are modelled
with `Option`.  Stateful code is modelled by explicit state passing
(rate limiter, downloader) or by a labelled small-step transition relation
(queue manager, whose behaviour arises from `asyncio` interleavings).
-/

namespace SnapchatPro

/-! ## Rate limiter (`src/rate_limiter.py`)

`RateLimiter.__init__(requests_per_minute=30, burst_size=5)` keeps a table
`user_requests : Dict[int, List[float]]` of request timestamps per user.
All methods below are evaluated at an explicit current time `now`.
-/

/-- The lazy pruning performed at the start of `is_allowed` and inside
`get_user_stats`: keep only timestamps strictly younger than 60 seconds
(`current_time - req_time < 60`). -/
def prune (now : ℚ) (reqs : List ℚ) : List ℚ :=
  reqs.filter (fun t => now - t < 60)

/-- `RateLimiter.is_allowed(user_id)` for one user window, lines 13–41 of
`src/rate_limiter.py`.  Input: configured `requests_per_minute` and
`burst_size`, the current time, and the stored timestamp list of the user.
Output: `some (allowed, new_window)`, or `none` in the one code path where
the Python raises an uncaught `IndexError` (`user_reqs[0]` on an empty
list, reachable only when `burst_size = 0`).

The Python, step by step:
1. prune entries `>= 60s` old and store the pruned list back;
2. `len >= requests_per_minute` → deny;
3. `len < burst_size` → append `now`, allow;
4. otherwise deny iff `now - window[0] < (60 / requests_per_minute) * len`,
   else append `now` and allow. -/
def isAllowed (rpm burst : ℕ) (now : ℚ) (reqs : List ℚ) :
    Option (Bool × List ℚ) :=
  let w := prune now reqs
  if w.length ≥ rpm then some (false, w)
  else if w.length < burst then some (true, w ++ [now])
  else
    match w with
    | [] => none
    | t0 :: _ =>
      if now - t0 < (60 / (rpm : ℚ)) * (w.length : ℚ) then some (false, w)
      else some (true, w ++ [now])

/-- A sequence of consecutive `is_allowed` calls for one user at the given
times, threading the stored window exactly as the Python mutates
`self.user_requests[user_id]`.  Returns the list of boolean answers and
the final stored window. -/
def runChecks (rpm burst : ℕ) (reqs : List ℚ) :
    List ℚ → Option (List Bool × List ℚ)
  | [] => some ([], reqs)
  | t :: ts =>
    match isAllowed rpm burst t reqs with
    | none => none
    | some (a, w) =>
      match runChecks rpm burst w ts with
      | none => none
      | some (as, w') => some (a :: as, w')

/-- Python's `min` on a non-empty list of floats (defaulting to 0 on `[]`,
a case `get_user_stats` never evaluates thanks to its conditional). -/
def minList : List ℚ → ℚ
  | [] => 0
  | [x] => x
  | x :: y :: xs => min x (minList (y :: xs))

/-- `self.user_requests.get(user_id, [])` over the per-process table,
modelled as an association list `user_id ↦ timestamps`: the stored
timestamps of a user, `[]` for an unknown user (and no insertion — unlike
the `defaultdict` access in `is_allowed`). -/
def getReqs (table : List (ℕ × List ℚ)) (u : ℕ) : List ℚ :=
  match table.find? (fun p => p.1 == u) with
  | some p => p.2
  | none => []

/-- `RateLimiter.get_user_stats(user_id)`, lines 52–64 of
`src/rate_limiter.py`.  It reads the stored table with `.get(user_id, [])`
(see `getReqs`; no `defaultdict` insertion, unlike `is_allowed`), filters
to the trailing 60-second window, and returns the stats dict
`(requests_last_minute, limit, next_reset_in)` together with the table,
which it leaves untouched — the method performs no write. -/
def getUserStats (rpm : ℕ) (now : ℚ) (table : List (ℕ × List ℚ)) (u : ℕ) :
    (ℕ × ℕ × ℚ) × List (ℕ × List ℚ) :=
  let recent := prune now (getReqs table u)
  ((recent.length, rpm, if recent.isEmpty then 0 else 60 - (now - minList recent)),
   table)

/-! ## Downloader (`src/downloader.py`)

`DownloadManager._download_single` streams one HTTP response to a file in
8192-byte chunks and `download_batch` gathers a list of such downloads
under a 300-second aggregate timeout.  The network and filesystem are
abstracted per item: an `ItemSpec` records the HTTP status code of the
response and the sequence of body chunks, where `some n` is a chunk of
`n` bytes delivered to `iter_chunked` and `none` is the point at which
the stream raises (network / I/O error).

Note: `downloader.py` uses the names `config` (the `ConfigManager`
instance of `src/config.py`) and `urlparse` without importing them; the
embedding resolves `config.bot.max_file_size` to the parameter `maxSize`,
matching `src/config.py`.
-/

/-- One media descriptor's downstream behaviour: the response status and
the body chunks (`none` = the stream raises at that point). -/
structure ItemSpec where
  status : ℕ
  chunks : List (Option ℕ)
deriving DecidableEq, Repr

/-- Outcome of the chunked write loop of `_download_single`. -/
inductive StreamResult where
  /-- the whole body was written; `size` bytes are in the file -/
  | ok (size : ℕ)
  /-- cumulative bytes exceeded the max: partial file deleted,
      `ValueError("File too large")` raised -/
  | oversize
  /-- the stream raised mid-transfer; `partialSize` bytes stay in the file -/
  | raised (partialSize : ℕ)
deriving DecidableEq, Repr

/-- The `async for chunk in response.content.iter_chunked(8192)` loop,
lines 67–80 of `src/downloader.py`: skip falsy (empty) chunks, otherwise
write the chunk, add its length to `downloaded`, and abort (deleting the
file) as soon as `downloaded > config.bot.max_file_size`. -/
def runStream (maxSize : ℕ) : List (Option ℕ) → ℕ → StreamResult
  | [], d => .ok d
  | none :: _, d => .raised d
  | some c :: rest, d =>
    if c = 0 then runStream maxSize rest d
    else if maxSize < d + c then .oversize
    else runStream maxSize rest (d + c)

/-- `DownloadManager._download_single`, lines 48–88 of `src/downloader.py`,
for one item.  Returns `(persisted, returned)`:
* `persisted` — `some n` iff after the call a file of `n` bytes for this
  item remains on storage (`none` for non-200, where the file is never
  opened, and for oversize, where the partial file is unlinked);
* `returned` — whether the coroutine returns the path (it does so exactly
  when the file exists with `st_size > 0`).
Any exception (stream error, oversize `ValueError`) is caught by the
`except Exception` handler, which returns `None`. -/
def downloadSingle (maxSize : ℕ) (it : ItemSpec) : Option ℕ × Bool :=
  if it.status ≠ 200 then (none, false)
  else
    match runStream maxSize it.chunks 0 with
    | .ok d => (some d, decide (0 < d))
    | .oversize => (none, false)
    | .raised d => (some d, false)

/-- The claim-side notion of a descriptor whose download *succeeds*
(§8.4 of the spec): successful status, the stream neither errors nor
exceeds the size ceiling, and the resulting file is non-empty. -/
def itemSucceeds (maxSize : ℕ) (it : ItemSpec) : Bool :=
  it.status == 200 &&
    match runStream maxSize it.chunks 0 with
    | .ok d => decide (0 < d)
    | _ => false

/-- The result-collection loop of `download_batch`, lines 40–46: walk the
gathered per-item results in submission order and keep those that
returned an existing path.  Indices stand for the per-item file paths
(distinct across items by construction of the filename, which embeds the
item's batch index). -/
def batchCollect (maxSize : ℕ) (idx : ℕ) : List ItemSpec → List ℕ
  | [] => []
  | it :: rest =>
    if (downloadSingle maxSize it).2 then idx :: batchCollect maxSize (idx + 1) rest
    else batchCollect maxSize (idx + 1) rest

/-- `DownloadManager.download_batch`, lines 18–46 of `src/downloader.py`.
`timedOut` says whether the aggregate `asyncio.wait_for(..., timeout=300)`
deadline elapsed; in that case the `except asyncio.TimeoutError` branch
returns `[]` and every in-flight result is discarded.  Otherwise the
successful items' paths (indices) are collected in submission order. -/
def downloadBatch (timedOut : Bool) (maxSize : ℕ) (items : List ItemSpec) :
    List ℕ :=
  if timedOut then [] else batchCollect maxSize 0 items

/-! ## Job id generation (`QueueManager.add_job`, lines 47–62)

`job_id = f"{user_id}_{int(time.time())}_{hash(url) % 10000}"` — the
decimal renderings of the requester id, the submission second, and the
url-hash salt, joined by underscores.  The id is modelled as the list of
characters of that f-string.  `hash(url) % 10000` is a non-negative
residue below 10000 (Python `%` with a positive modulus); the salt input
is therefore taken as a natural and reduced mod 10000 here.
-/

/-- Big-endian decimal digit characters of `n`, peeled with `% 10` /
`/ 10`; `fuel` bounds the recursion and any `fuel ≥ n` gives the digits
of `n`. -/
def decAux : ℕ → ℕ → List Char
  | 0, _ => []
  | _ + 1, 0 => []
  | fuel + 1, n + 1 =>
    decAux fuel ((n + 1) / 10) ++ [Char.ofNat (48 + (n + 1) % 10)]

/-- Python's decimal rendering of a natural (as in the f-string). -/
def decimalChars (n : ℕ) : List Char :=
  if n = 0 then ['0'] else decAux n n

/-- The characters of the `job_id` f-string built by `add_job`. -/
def mkJobId (userId timeSec urlHash : ℕ) : List Char :=
  decimalChars userId ++ '_' :: decimalChars timeSec ++
    '_' :: decimalChars (urlHash % 10000)

/-! ## Job scheduler (`src/queue_manager.py`)

`QueueManager` runs on a single `asyncio` event loop.  Its behaviour is
modelled as a labelled small-step transition relation over explicit
states.  Atomic (await-free) stretches of Python become single steps:

* `add_job` (lines 47–62): store `jobs[job_id] = job` (overwriting any
  record with the same id — modelled by a generation counter) and enqueue
  the id.  The intake queue is unbounded, so the step is always enabled.
* `_process_queue` (lines 64–86): at the top of the loop
  (`pc = .check`) it exits if `self._running` is false, sleeps if
  `len(active_tasks) >= max_concurrent`, otherwise moves to the
  `await wait_for(queue.get(), 1)` suspension point (`pc = .waiting`).
  From there either the timeout fires or a queued id is dequeued: the job
  is set to Processing, a task is spawned and tracked under its job id —
  with NO re-check of `self._running`.
* `_process_job` bodies finish atomically after their awaits: on success
  the body writes `COMPLETED` to *its* job object (visible in `self.jobs`
  only if that object is still the current record for the id, i.e. the
  generations match); on an exception the body just ends.
* `_task_done` (lines 98–106), the `add_done_callback` callback, runs
  later as its own event-loop callback: it pops `active_tasks[job_id]`
  *by key*, and then inspects `task.exception()`: for a failed task it
  writes `FAILED` + the full `str(exception)` into the *current* record
  of that id; for a cancelled task `task.exception()` itself raises
  `CancelledError`, so the status write is never reached and the job
  record stays `PROCESSING` forever.
* `stop` (lines 39–45): set `_running = False` and cancel every task in
  `active_tasks.values()` (a cancel of an already-finished task is a
  no-op).

Job ids are abstracted to naturals here (their concrete string form is
`mkJobId` above, whose collisions are exactly what the generation counter
models).
-/

/-- `JobStatus` of `src/queue_manager.py` (a failed job also carries its
stored `error_message`). -/
inductive JStatus where
  | pending
  | processing
  | completed
  | failed (msg : String)
deriving DecidableEq, Repr

/-- One entry of `self.jobs`: the key, the generation of the current
`DownloadJob` object stored under that key (bumped when `add_job`
overwrites a colliding id), and its status. -/
structure JobRec where
  key : ℕ
  gen : ℕ
  status : JStatus
deriving DecidableEq, Repr

/-- Lifecycle of one spawned `_process_job` task. -/
inductive TState where
  /-- coroutine still running -/
  | running
  /-- body returned normally; done-callback not yet run -/
  | doneOk
  /-- body raised `msg`; done-callback not yet run -/
  | doneErr (msg : String)
  /-- task was cancelled; done-callback not yet run -/
  | cancelledT
  /-- done-callback has run -/
  | reaped
deriving DecidableEq, Repr

/-- One task ever spawned by the dispatch loop: its job key, the
generation of the job object it was given, and its lifecycle state.
Tasks are identified by their index in the state's task list. -/
structure TaskRec where
  key : ℕ
  gen : ℕ
  st : TState
deriving DecidableEq, Repr

/-- Position of the `_process_queue` coroutine. -/
inductive PC where
  /-- at the top of the `while self._running:` loop -/
  | check
  /-- suspended in `await asyncio.wait_for(self.queue.get(), timeout=1)` -/
  | waiting
  /-- the loop has exited -/
  | exited
deriving DecidableEq, Repr

/-- Global state of a `QueueManager` (after `start()` has run once). -/
structure SState where
  running : Bool
  pc : PC
  jobs : List JobRec
  queue : List ℕ
  /-- `self.active_tasks`: job key ↦ index of the tracked task -/
  active : List (ℕ × ℕ)
  tasks : List TaskRec
deriving DecidableEq, Repr

/-- Lookup of `self.jobs[k]`. -/
def findJob (jobs : List JobRec) (k : ℕ) : Option JobRec :=
  jobs.find? (fun j => j.key == k)

/-- Generation of the current record under key `k` (0 if absent). -/
def currentGen (jobs : List JobRec) (k : ℕ) : ℕ :=
  match findJob jobs k with
  | some j => j.gen
  | none => 0

/-- `self.jobs[k].status = st` (updates the current record of `k`). -/
def setStatus (jobs : List JobRec) (k : ℕ) (st : JStatus) : List JobRec :=
  jobs.map (fun j => if j.key == k then { j with status := st } else j)

/-- `self.jobs[job_id] = job` in `add_job`: overwrite the record under an
existing key with a fresh `PENDING` object (next generation), or append a
new record. -/
def bumpJob (jobs : List JobRec) (k : ℕ) : List JobRec :=
  if jobs.any (fun j => j.key == k) then
    jobs.map (fun j =>
      if j.key == k then { key := k, gen := j.gen + 1, status := .pending }
      else j)
  else jobs ++ [{ key := k, gen := 1, status := .pending }]

/-- `self.active_tasks[k] = t` (dict insert-or-overwrite). -/
def insertActive (a : List (ℕ × ℕ)) (k t : ℕ) : List (ℕ × ℕ) :=
  if a.any (fun p => p.1 == k) then
    a.map (fun p => if p.1 == k then (k, t) else p)
  else a ++ [(k, t)]

/-- `self.active_tasks.pop(k, None)`. -/
def eraseActive (a : List (ℕ × ℕ)) (k : ℕ) : List (ℕ × ℕ) :=
  a.filter (fun p => p.1 != k)

/-- Walk the task list from index `i`, cancelling every still-running
task whose index is tracked in `a`. -/
def cancelFrom (a : List (ℕ × ℕ)) : ℕ → List TaskRec → List TaskRec
  | _, [] => []
  | i, t :: rest =>
    (if a.any (fun q => q.2 == i) && t.st == TState.running then
      { t with st := TState.cancelledT }
    else t) :: cancelFrom a (i + 1) rest

/-- `stop()`'s `for task in self.active_tasks.values(): task.cancel()`:
every still-running task whose index is tracked becomes cancelled
(cancelling an already-finished task is a no-op). -/
def cancelTasks (tasks : List TaskRec) (a : List (ℕ × ℕ)) : List TaskRec :=
  cancelFrom a 0 tasks

/-- Step labels (used to state trace properties). -/
inductive Lab where
  | submit (k : ℕ)
  | loopEnter
  | loopExit
  | wtimeout
  | dispatch
  | ghostDispatch
  | bodyOk (i : ℕ)
  | bodyErr (i : ℕ) (msg : String)
  | callback (i : ℕ)
  | stopE
deriving DecidableEq, Repr

/-- Small-step semantics of `QueueManager` with ceiling `maxC`
(`max_concurrent`). -/
inductive Step (maxC : ℕ) : SState → Lab → SState → Prop where
  /-- `add_job`: overwrite-or-create the job record, put the id on the
  intake queue.  Always enabled (unbounded queue, no running check). -/
  | submit (s : SState) (k : ℕ) :
      Step maxC s (.submit k)
        { s with jobs := bumpJob s.jobs k, queue := s.queue ++ [k] }
  /-- loop top, running, under capacity: proceed to the dequeue await. -/
  | loopEnter (s : SState) (h1 : s.pc = .check) (h2 : s.running = true)
      (h3 : s.active.length < maxC) :
      Step maxC s .loopEnter { s with pc := .waiting }
  /-- loop top, `self._running` false: the `while` exits. -/
  | loopExit (s : SState) (h1 : s.pc = .check) (h2 : s.running = false) :
      Step maxC s .loopExit { s with pc := .exited }
  /-- `asyncio.TimeoutError` of the 1-second `wait_for`: back to the top. -/
  | wtimeout (s : SState) (h1 : s.pc = .waiting) :
      Step maxC s .wtimeout { s with pc := .check }
  /-- dequeue a job id that is in `self.jobs`: set it Processing, spawn
  and track its task.  `self._running` is NOT re-checked here. -/
  | dispatch (s : SState) (k : ℕ) (rest : List ℕ) (h1 : s.pc = .waiting)
      (h2 : s.queue = k :: rest) (h3 : findJob s.jobs k ≠ none) :
      Step maxC s .dispatch
        { s with
          queue := rest
          jobs := setStatus s.jobs k .processing
          tasks := s.tasks ++ [⟨k, currentGen s.jobs k, .running⟩]
          active := insertActive s.active k s.tasks.length
          pc := .check }
  /-- dequeue an id absent from `self.jobs` (`if job_id in self.jobs`
  guard): nothing happens. -/
  | ghostDispatch (s : SState) (k : ℕ) (rest : List ℕ)
      (h1 : s.pc = .waiting) (h2 : s.queue = k :: rest)
      (h3 : findJob s.jobs k = none) :
      Step maxC s .ghostDispatch { s with queue := rest, pc := .check }
  /-- a task body finishes normally: it writes `COMPLETED` to its own job
  object, which is the visible record iff the generations match. -/
  | bodyOk (s : SState) (i : ℕ) (t : TaskRec) (h1 : s.tasks[i]? = some t)
      (h2 : t.st = .running) :
      Step maxC s (.bodyOk i)
        { s with
          tasks := s.tasks.set i { t with st := .doneOk }
          jobs := if t.gen == currentGen s.jobs t.key then
              setStatus s.jobs t.key .completed
            else s.jobs }
  /-- a task body raises `msg` (status written later, by the callback). -/
  | bodyErr (s : SState) (i : ℕ) (t : TaskRec) (msg : String)
      (h1 : s.tasks[i]? = some t) (h2 : t.st = .running) :
      Step maxC s (.bodyErr i msg)
        { s with tasks := s.tasks.set i { t with st := .doneErr msg } }
  /-- `_task_done` for a task that returned normally: pop the id from
  `active_tasks`; `task.exception()` is `None`, no status write. -/
  | cbOk (s : SState) (i : ℕ) (t : TaskRec) (h1 : s.tasks[i]? = some t)
      (h2 : t.st = .doneOk) :
      Step maxC s (.callback i)
        { s with
          active := eraseActive s.active t.key
          tasks := s.tasks.set i { t with st := .reaped } }
  /-- `_task_done` for a task that raised: pop the id, then write
  `FAILED` and the full `str(exception)` into the current record. -/
  | cbErr (s : SState) (i : ℕ) (t : TaskRec) (msg : String)
      (h1 : s.tasks[i]? = some t) (h2 : t.st = .doneErr msg) :
      Step maxC s (.callback i)
        { s with
          active := eraseActive s.active t.key
          tasks := s.tasks.set i { t with st := .reaped }
          jobs := setStatus s.jobs t.key (.failed msg) }
  /-- `_task_done` for a cancelled task: pop the id, then
  `task.exception()` raises `CancelledError` — the `FAILED` write is
  never reached, the record keeps whatever status it had. -/
  | cbCancel (s : SState) (i : ℕ) (t : TaskRec) (h1 : s.tasks[i]? = some t)
      (h2 : t.st = .cancelledT) :
      Step maxC s (.callback i)
        { s with
          active := eraseActive s.active t.key
          tasks := s.tasks.set i { t with st := .reaped } }
  /-- `stop()`: clear the running flag and cancel all tracked tasks. -/
  | stopE (s : SState) :
      Step maxC s .stopE
        { s with running := false, tasks := cancelTasks s.tasks s.active }

/-- State after `start()`: running, loop at its top, everything empty. -/
def init : SState :=
  { running := true, pc := .check, jobs := [], queue := [], active := []
    tasks := [] }

/-- Reachability from `init` under arbitrary interleavings. -/
inductive Reach (maxC : ℕ) : SState → Prop where
  | init : Reach maxC init
  | step {s s' : SState} {l : Lab} (hr : Reach maxC s)
      (hs : Step maxC s l s') : Reach maxC s'

/-- Labels whose submissions use a fresh job id (no `job_id` collision). -/
def FreshLab (s : SState) : Lab → Prop
  | .submit k => findJob s.jobs k = none
  | _ => True

/-- Reachability along runs in which every submission gets a fresh id. -/
inductive ReachU (maxC : ℕ) : SState → Prop where
  | init : ReachU maxC init
  | step {s s' : SState} {l : Lab} (hr : ReachU maxC s)
      (hs : Step maxC s l s') (hf : FreshLab s l) : ReachU maxC s'

/-- Executions of a sequence of labelled steps. -/
inductive Trace (maxC : ℕ) : SState → List Lab → SState → Prop where
  | nil (s : SState) : Trace maxC s [] s
  | cons {s s' s'' : SState} {l : Lab} {ls : List Lab}
      (h1 : Step maxC s l s') (h2 : Trace maxC s' ls s'') :
      Trace maxC s (l :: ls) s''

/-- Whether a job-record status is `PROCESSING`. -/
def isProcessing : JStatus → Bool
  | .processing => true
  | _ => false

/-- Number of jobs simultaneously in `PROCESSING` status. -/
def processingCount (s : SState) : ℕ :=
  s.jobs.countP (fun j => isProcessing j.status)

/-- Number of `PROCESSING` records in `jobs` whose key is not tracked in
the dict `active`. -/
def stuckOf (jobs : List JobRec) (active : List (ℕ × ℕ)) : ℕ :=
  jobs.countP (fun j =>
    isProcessing j.status && !(active.any (fun p => p.1 == j.key)))

/-- Number of `PROCESSING` jobs not tracked in `active_tasks`. -/
def stuckCount (s : SState) : ℕ :=
  stuckOf s.jobs s.active

/-! ## Lemmas about the downloader -/

/-- The path is returned exactly for items that succeed in the claim-side
sense. -/
theorem downloadSingle_snd_eq (maxSize : ℕ) (it : ItemSpec) :
    (downloadSingle maxSize it).2 = itemSucceeds maxSize it := by
  unfold downloadSingle itemSucceeds
  by_cases h : it.status = 200
  · simp only [h, ne_eq, not_true_eq_false, if_false, beq_self_eq_true,
      Bool.true_and]
    cases runStream maxSize it.chunks 0 <;> rfl
  · simp only [ne_eq, h, not_false_eq_true, if_true]
    have : (it.status == 200) = false := by
      simpa using h
    simp [this]

/-- A successful item leaves a non-empty file on storage. -/
theorem downloadSingle_success_persists (maxSize : ℕ) (it : ItemSpec)
    (h : (downloadSingle maxSize it).2 = true) :
    ∃ d, (downloadSingle maxSize it).1 = some d ∧ 0 < d := by
  unfold downloadSingle at *
  by_cases hs : it.status = 200
  · simp only [hs, ne_eq, not_true_eq_false, if_false] at *
    cases hr : runStream maxSize it.chunks 0 with
    | ok d =>
      refine ⟨d, ?_, ?_⟩
      · simp [hr]
      · rw [hr] at h; simpa using h
    | oversize => rw [hr] at h; simp at h
    | raised p => rw [hr] at h; simp at h
  · simp only [ne_eq, hs, not_false_eq_true, if_true] at h
    exact absurd h (by simp)

/-- Membership in the collected result list of `download_batch`. -/
theorem mem_batchCollect (maxSize : ℕ) :
    ∀ (l : List ItemSpec) (k i : ℕ),
      i ∈ batchCollect maxSize k l ↔
        ∃ j it, l[j]? = some it ∧ i = k + j ∧
          (downloadSingle maxSize it).2 = true := by
  intro l
  induction l with
  | nil =>
    intro k i
    simp [batchCollect]
  | cons it rest ih =>
    intro k i
    constructor
    · intro h
      unfold batchCollect at h
      by_cases hsucc : (downloadSingle maxSize it).2 = true
      · rw [if_pos hsucc] at h
        rcases List.mem_cons.mp h with h0 | h1
        · exact ⟨0, it, by simp, by omega, hsucc⟩
        · rcases (ih (k + 1) i).mp h1 with ⟨j, it', hj, hi, hs⟩
          exact ⟨j + 1, it', by simpa using hj, by omega, hs⟩
      · rw [if_neg hsucc] at h
        rcases (ih (k + 1) i).mp h with ⟨j, it', hj, hi, hs⟩
        exact ⟨j + 1, it', by simpa using hj, by omega, hs⟩
    · rintro ⟨j, it', hj, hi, hs⟩
      unfold batchCollect
      cases j with
      | zero =>
        simp only [List.getElem?_cons_zero, Option.some.injEq] at hj
        subst hj
        rw [if_pos hs]
        simp [hi]
      | succ j' =>
        simp only [List.getElem?_cons_succ] at hj
        have hmem : i ∈ batchCollect maxSize (k + 1) rest :=
          (ih (k + 1) i).mpr ⟨j', it', hj, by omega, hs⟩
        by_cases hsucc : (downloadSingle maxSize it).2 = true
        · rw [if_pos hsucc]; exact List.mem_cons_of_mem _ hmem
        · rw [if_neg hsucc]; exact hmem

/-- The collected result list has one entry per succeeding item. -/
theorem length_batchCollect (maxSize : ℕ) :
    ∀ (l : List ItemSpec) (k : ℕ),
      (batchCollect maxSize k l).length =
        l.countP (fun it => (downloadSingle maxSize it).2) := by
  intro l
  induction l with
  | nil => intro k; simp [batchCollect]
  | cons it rest ih =>
    intro k
    unfold batchCollect
    by_cases hsucc : (downloadSingle maxSize it).2 = true
    · rw [if_pos hsucc]
      simp [List.countP_cons, hsucc, ih (k + 1)]
    · rw [if_neg hsucc]
      have : (downloadSingle maxSize it).2 = false :=
        Bool.eq_false_iff.mpr hsucc
      simp [List.countP_cons, this, ih (k + 1)]

/-- C3: for every batch of descriptors, `download_batch` (absent a batch
timeout) returns exactly the paths (indices) of the items whose download
succeeded — one entry per successful item, in submission order — and each
returned path refers to a file that exists on storage and is non-empty;
per-item failures only shrink the result, a totally failed batch yields
`[]`, and the function is total (every per-item exception is caught, so
nothing is raised to the caller). -/
theorem c3_batch_partial_success (maxSize : ℕ) (items : List ItemSpec) :
    (∀ i, i ∈ downloadBatch false maxSize items ↔
      ∃ it, items[i]? = some it ∧ itemSucceeds maxSize it = true) ∧
    (downloadBatch false maxSize items).length =
      items.countP (itemSucceeds maxSize) ∧
    (∀ i ∈ downloadBatch false maxSize items,
      ∃ it d, items[i]? = some it ∧
        (downloadSingle maxSize it).1 = some d ∧ 0 < d) ∧
    (items.all (fun it => !(itemSucceeds maxSize it)) = true →
      downloadBatch false maxSize items = []) := by
  have hmem : ∀ i, i ∈ downloadBatch false maxSize items ↔
      ∃ it, items[i]? = some it ∧ itemSucceeds maxSize it = true := by
    intro i
    unfold downloadBatch
    rw [if_neg (by simp)]
    rw [mem_batchCollect]
    constructor
    · rintro ⟨j, it, hj, hi, hs⟩
      rw [downloadSingle_snd_eq] at hs
      exact ⟨it, by simpa [hi] using hj, hs⟩
    · rintro ⟨it, hj, hs⟩
      rw [← downloadSingle_snd_eq] at hs
      exact ⟨i, it, hj, by omega, hs⟩
  refine ⟨hmem, ?_, ?_, ?_⟩
  · unfold downloadBatch
    rw [if_neg (by simp), length_batchCollect]
    exact List.countP_congr (fun it _ => by rw [downloadSingle_snd_eq])
  · intro i hi
    rcases (hmem i).mp hi with ⟨it, hj, hs⟩
    rw [← downloadSingle_snd_eq] at hs
    rcases downloadSingle_success_persists maxSize it hs with ⟨d, h1, h2⟩
    exact ⟨it, d, hj, h1, h2⟩
  · intro hall
    have hlen : (downloadBatch false maxSize items).length = 0 := by
      unfold downloadBatch
      rw [if_neg (by simp), length_batchCollect]
      rw [List.countP_eq_zero]
      intro it hit
      have := List.all_eq_true.mp hall it hit
      rw [downloadSingle_snd_eq]
      simpa using this
    exact List.length_eq_zero.mp hlen

/-- Witness for C3 at a concrete batch of 5 descriptors with
`max_file_size = 1000`: items 1 and 4 get non-200 responses, items
0, 2, 3 succeed; the batch returns exactly the 3 paths of the successful
items. -/
theorem c3_batch_partial_success_witness :
    downloadBatch false 1000
        [⟨200, [some 5]⟩, ⟨404, [some 5]⟩, ⟨200, [some 3]⟩,
         ⟨200, [some 7]⟩, ⟨500, [some 2]⟩] = [0, 2, 3] ∧
    (downloadBatch false 1000
        [⟨200, [some 5]⟩, ⟨404, [some 5]⟩, ⟨200, [some 3]⟩,
         ⟨200, [some 7]⟩, ⟨500, [some 2]⟩]).length =
      ([⟨200, [some 5]⟩, ⟨404, [some 5]⟩, ⟨200, [some 3]⟩,
        ⟨200, [some 7]⟩, ⟨500, [some 2]⟩] : List ItemSpec).countP
        (itemSucceeds 1000) := by
  refine ⟨by decide, ?_⟩
  exact (c3_batch_partial_success 1000
    [⟨200, [some 5]⟩, ⟨404, [some 5]⟩, ⟨200, [some 3]⟩,
     ⟨200, [some 7]⟩, ⟨500, [some 2]⟩]).2.1

/-- C6: a downloaded item whose cumulative streamed bytes exceed the
configured `max_file_size` (the stream loop ends in the oversize abort)
leaves no file on storage — the partial file is unlinked — its path is
not returned, and it is absent from the result set of any batch
containing it (timed out or not). -/
theorem c6_oversize_enforcement (maxSize : ℕ) (it : ItemSpec)
    (h200 : it.status = 200)
    (hov : runStream maxSize it.chunks 0 = .oversize) :
    (downloadSingle maxSize it).1 = none ∧
    (downloadSingle maxSize it).2 = false ∧
    ∀ (timedOut : Bool) (items : List ItemSpec) (i : ℕ),
      items[i]? = some it → i ∉ downloadBatch timedOut maxSize items := by
  have hds : downloadSingle maxSize it = (none, false) := by
    unfold downloadSingle
    rw [if_neg (by simp [h200]), hov]
  refine ⟨by rw [hds], by rw [hds], ?_⟩
  intro timedOut items i hitem hmem
  cases timedOut with
  | true => simp [downloadBatch] at hmem
  | false =>
    unfold downloadBatch at hmem
    rw [if_neg (by simp)] at hmem
    rcases (mem_batchCollect maxSize items 0 i).mp hmem with ⟨j, it', hj, hi, hs⟩
    have : j = i := by omega
    subst this
    rw [hitem] at hj
    cases hj
    rw [hds] at hs
    simp at hs

/-- Witness for C6: with `max_file_size = 10`, an item streaming chunks of
6 and 7 bytes crosses the ceiling (13 > 10); no file persists and the
item is excluded from its batch. -/
theorem c6_oversize_enforcement_witness :
    (downloadSingle 10 ⟨200, [some 6, some 7]⟩).1 = none ∧
    (0 : ℕ) ∉ downloadBatch false 10 [⟨200, [some 6, some 7]⟩] := by
  have h := c6_oversize_enforcement 10 ⟨200, [some 6, some 7]⟩
    (by decide) (by decide)
  exact ⟨h.1, h.2.2 false [⟨200, [some 6, some 7]⟩] 0 (by decide)⟩

/-- C9: if the aggregate 300-second `asyncio.wait_for` deadline elapses,
`download_batch` returns the empty list — whatever the per-item outcomes
were, every in-flight result is discarded — and the
`asyncio.TimeoutError` is swallowed, not surfaced to the caller. -/
theorem c9_batch_timeout (maxSize : ℕ) (items : List ItemSpec) :
    downloadBatch true maxSize items = [] := rfl

/-! ## Lemmas about the rate limiter -/

/-- Pruning is idempotent: the window stored back by `is_allowed` is
already pruned. -/
theorem prune_idem (now : ℚ) (l : List ℚ) :
    prune now (prune now l) = prune now l := by
  unfold prune
  rw [List.filter_filter]
  simp

/-- `is_allowed` depends only on the timestamps younger than 60 seconds:
entries older than that are excluded from every limit computation. -/
theorem isAllowed_prune (rpm burst : ℕ) (now : ℚ) (l : List ℚ) :
    isAllowed rpm burst now l = isAllowed rpm burst now (prune now l) := by
  unfold isAllowed
  rw [prune_idem]

/-- Python's `min` of a non-empty list is one of its elements. -/
theorem minList_mem : ∀ (l : List ℚ), l ≠ [] → minList l ∈ l := by
  intro l
  induction l with
  | nil => intro h; exact absurd rfl h
  | cons x xs ih =>
    intro _
    cases xs with
    | nil => simp [minList]
    | cons y ys =>
      rcases min_cases x (minList (y :: ys)) with ⟨heq, _⟩ | ⟨heq, _⟩
      · simp [minList, heq]
      · have := ih (by simp)
        simp only [minList, heq]
        exact List.mem_cons_of_mem x this

/-- Every pruned timestamp is younger than 60 seconds. -/
theorem mem_prune_lt (now : ℚ) (l : List ℚ) (t : ℚ) (h : t ∈ prune now l) :
    now - t < 60 := by
  unfold prune at h
  have := List.of_mem_filter h
  simpa using this

/-- C4 (amendable core of the spacing rule): whenever the pruned window
has length at least `burst_size` and below `requests_per_minute`,
`is_allowed` completes without error and denies exactly when
`now - window[0] < (60 / requests_per_minute) * len(window)`; on an
allow it appends `now` to the stored window, on a deny the stored window
is exactly the pruned one. -/
theorem c4_spacing_decision (rpm burst : ℕ) (now : ℚ) (reqs : List ℚ)
    (hb : burst ≤ (prune now reqs).length)
    (hr : (prune now reqs).length < rpm)
    (hne : prune now reqs ≠ []) :
    ∃ a w', isAllowed rpm burst now reqs = some (a, w') ∧
      (a = false ↔ now - (prune now reqs).headI <
        (60 / (rpm : ℚ)) * ((prune now reqs).length : ℚ)) ∧
      (a = true → w' = prune now reqs ++ [now]) ∧
      (a = false → w' = prune now reqs) := by
  have h1 : ¬ ((prune now reqs).length ≥ rpm) := by omega
  have h2 : ¬ ((prune now reqs).length < burst) := by omega
  rcases hwl : prune now reqs with _ | ⟨t0, tl⟩
  · exact absurd hwl hne
  · rw [hwl] at h1 h2
    by_cases hlt : now - t0 < (60 / (rpm : ℚ)) * (((t0 :: tl).length : ℕ) : ℚ)
    · refine ⟨false, t0 :: tl, ?_, ?_, ?_, ?_⟩
      · simp only [isAllowed, hwl]
        rw [if_neg h1, if_neg h2, if_pos hlt]
      · exact iff_of_true rfl hlt
      · intro h; cases h
      · intro _; rfl
    · refine ⟨true, (t0 :: tl) ++ [now], ?_, ?_, ?_, ?_⟩
      · simp only [isAllowed, hwl]
        rw [if_neg h1, if_neg h2, if_neg hlt]
      · exact iff_of_false (by simp) hlt
      · intro _; rfl
      · intro h; cases h

/-- Witness for C4: `requests_per_minute = 4`, `burst_size = 2`,
`now = 2`, stored window `[0, 1]` (pruned length 2, so the spacing branch
runs): required spacing is `(60/4)*2 = 30`, elapsed is `2`, so the call
is denied and the stored window is unchanged. -/
theorem c4_spacing_decision_witness :
    ∃ a w', isAllowed 4 2 2 [0, 1] = some (a, w') ∧
      (a = false ↔ (2 : ℚ) - (prune 2 [0, 1]).headI <
        (60 / ((4 : ℕ) : ℚ)) * ((prune 2 [0, 1]).length : ℚ)) ∧
      (a = true → w' = prune 2 [0, 1] ++ [2]) ∧
      (a = false → w' = prune 2 [0, 1]) :=
  c4_spacing_decision 4 2 2 [0, 1] (by norm_num [prune])
    (by norm_num [prune])
    (by rw [show prune 2 [0, 1] = ([0, 1] : List ℚ) from by norm_num [prune]]
        simp)

/-- While the pruned window stays shorter than `burst_size ≤
requests_per_minute`, every check takes the burst fast-path: from a
window `w`, `ts.length` further checks all succeed as long as
`w.length + ts.length ≤ burst_size`. -/
theorem runChecks_burst (rpm burst : ℕ) (hbr : burst ≤ rpm) :
    ∀ (ts : List ℚ) (w : List ℚ), w.length + ts.length ≤ burst →
      ∃ w', runChecks rpm burst w ts =
          some (List.replicate ts.length true, w') ∧
        w'.length ≤ w.length + ts.length := by
  intro ts
  induction ts with
  | nil =>
    intro w h
    exact ⟨w, rfl, by omega⟩
  | cons t rest ih =>
    intro w h
    simp only [List.length_cons] at h
    have hplen : (prune t w).length ≤ w.length := List.length_filter_le _ _
    have hge : ¬ ((prune t w).length ≥ rpm) := by omega
    have hlt : (prune t w).length < burst := by omega
    have hfast : isAllowed rpm burst t w = some (true, prune t w ++ [t]) := by
      simp only [isAllowed]
      rw [if_neg hge, if_pos hlt]
    obtain ⟨w', hrc, hlen⟩ := ih (prune t w ++ [t])
      (by simp only [List.length_append, List.length_singleton]; omega)
    refine ⟨w', ?_, ?_⟩
    · rw [runChecks, hfast]
      dsimp only
      rw [hrc]
      simp [List.replicate_succ]
    · simp only [List.length_append, List.length_singleton] at hlen
      simp only [List.length_cons]
      omega

/-- C5 (amended): provided `burst_size ≤ requests_per_minute`, a requester
whose window is empty after pruning (no history, or idle for over 60
seconds) has their next `burst_size` consecutive admission checks all
return `True`; and timestamps older than 60 seconds are excluded from
every limit computation (`is_allowed` is invariant under pruning its
input). -/
theorem c5_burst_from_empty (rpm burst : ℕ) (hbr : burst ≤ rpm)
    (reqs : List ℚ) (t1 : ℚ) (rest : List ℚ)
    (h0 : prune t1 reqs = []) (hlen : rest.length + 1 ≤ burst) :
    (∃ w', runChecks rpm burst reqs (t1 :: rest) =
      some (List.replicate (rest.length + 1) true, w')) ∧
    (∀ (rpm' burst' : ℕ) (now : ℚ) (l : List ℚ),
      isAllowed rpm' burst' now l = isAllowed rpm' burst' now (prune now l)) := by
  refine ⟨?_, fun rpm' burst' now l => isAllowed_prune rpm' burst' now l⟩
  have hrpm : ¬ (([] : List ℚ).length ≥ rpm) := by
    simp only [List.length_nil]
    omega
  have hburst : ([] : List ℚ).length < burst := by
    simp only [List.length_nil]
    omega
  have hfirst : isAllowed rpm burst t1 reqs = some (true, [t1]) := by
    simp only [isAllowed, h0]
    rw [if_neg hrpm, if_pos hburst]
    rfl
  obtain ⟨w', hrc, _⟩ := runChecks_burst rpm burst hbr rest [t1]
    (by simp only [List.length_singleton]; omega)
  refine ⟨w', ?_⟩
  rw [runChecks, hfirst]
  dsimp only
  rw [hrc]
  simp [List.replicate_succ]

/-- Witness for C5 (amended) at the default configuration
`requests_per_minute = 30`, `burst_size = 5`: a requester with no history
gets five straight allows at times `0, 1, 2, 3, 4`. -/
theorem c5_burst_from_empty_witness :
    (∃ w', runChecks 30 5 [] ((0 : ℚ) :: [1, 2, 3, 4]) =
      some (List.replicate (([1, 2, 3, 4] : List ℚ).length + 1) true, w')) ∧
    (∀ (rpm' burst' : ℕ) (now : ℚ) (l : List ℚ),
      isAllowed rpm' burst' now l = isAllowed rpm' burst' now (prune now l)) :=
  c5_burst_from_empty 30 5 (by norm_num) [] 0 [1, 2, 3, 4] (by simp [prune])
    (by norm_num)

/-- Counterexample to C5 as stated: with `requests_per_minute = 1` and
`burst_size = 2` (the claim quantifies over every configuration), a
requester starting from an empty window is denied already on the second
of the `burst_size` checks — the per-minute ceiling, checked first, cuts
the burst short whenever `burst_size > requests_per_minute`. -/
theorem c5_counterexample :
    runChecks 1 2 [] [(0 : ℚ), 1] = some ([true, false], [0]) ∧
    ([true, false] ≠ List.replicate 2 true) := by
  constructor
  · have h1 : isAllowed 1 2 0 ([] : List ℚ) = some (true, [0]) := by
      simp only [isAllowed, prune, List.filter_nil]
      norm_num
    have h2 : isAllowed 1 2 1 [(0 : ℚ)] = some (false, [0]) := by
      have hp : prune 1 [(0 : ℚ)] = [0] := by norm_num [prune]
      simp only [isAllowed, hp]
      norm_num
    rw [runChecks, h1]
    dsimp only
    rw [runChecks, h2]
    dsimp only
    rw [runChecks]
  · simp [List.replicate]

/-- C10: `get_user_stats` is read-only — it returns the stored table
unchanged — and reports the count of requests in the trailing 60-second
window, the configured per-minute limit, and the seconds until the oldest
recent request leaves the window: `0` exactly when there are no recent
requests, and otherwise the strictly positive `60 - (now - min recent)`. -/
theorem c10_stats_read_only (rpm : ℕ) (now : ℚ)
    (table : List (ℕ × List ℚ)) (u : ℕ) :
    (getUserStats rpm now table u).2 = table ∧
    (getUserStats rpm now table u).1.1 =
      (prune now (getReqs table u)).length ∧
    (getUserStats rpm now table u).1.2.1 = rpm ∧
    (prune now (getReqs table u) = [] →
      (getUserStats rpm now table u).1.2.2 = 0) ∧
    (prune now (getReqs table u) ≠ [] →
      (getUserStats rpm now table u).1.2.2 =
        60 - (now - minList (prune now (getReqs table u))) ∧
      0 < (getUserStats rpm now table u).1.2.2) := by
  refine ⟨rfl, rfl, rfl, ?_, ?_⟩
  · intro h
    simp [getUserStats, h]
  · intro h
    have hmem := minList_mem (prune now (getReqs table u)) h
    have hlt := mem_prune_lt now (getReqs table u) _ hmem
    have hval : (getUserStats rpm now table u).1.2.2 =
        60 - (now - minList (prune now (getReqs table u))) := by
      simp only [getUserStats]
      rw [if_neg (by simpa [List.isEmpty_iff] using h)]
    refine ⟨hval, ?_⟩
    rw [hval]
    linarith

/-! ## Lemmas about the job-id string -/

/-- `decAux` is fuel-independent once the fuel covers the value. -/
theorem decAux_fuel : ∀ (n f g : ℕ), n ≤ f → n ≤ g →
    decAux f n = decAux g n := by
  intro n
  induction n using Nat.strong_induction_on with
  | _ n ih =>
    intro f g hf hg
    match n, f, g with
    | 0, 0, 0 => rfl
    | 0, 0, _ + 1 => rfl
    | 0, _ + 1, 0 => rfl
    | 0, _ + 1, _ + 1 => rfl
    | m + 1, f' + 1, g' + 1 =>
      have hdiv : (m + 1) / 10 < m + 1 := Nat.div_lt_self (by omega) (by omega)
      have h1 : (m + 1) / 10 ≤ f' := by omega
      have h2 : (m + 1) / 10 ≤ g' := by omega
      simp only [decAux]
      rw [ih ((m + 1) / 10) hdiv f' g' h1 h2]

/-- `decAux` is empty exactly on value zero (with adequate fuel). -/
theorem decAux_eq_nil : ∀ (n f : ℕ), n ≤ f → (decAux f n = [] ↔ n = 0) := by
  intro n f h
  match n, f with
  | 0, 0 => simp [decAux]
  | 0, _ + 1 => simp [decAux]
  | m + 1, f' + 1 =>
    simp only [decAux]
    constructor
    · intro hcontra
      exact absurd hcontra (by simp)
    · intro hcontra
      exact absurd hcontra (by omega)

/-- Every character of `decAux` is a decimal digit character. -/
theorem decAux_digits : ∀ (n f : ℕ), n ≤ f → ∀ c ∈ decAux f n,
    ∃ d, d < 10 ∧ c = Char.ofNat (48 + d) := by
  intro n
  induction n using Nat.strong_induction_on with
  | _ n ih =>
    intro f h c hc
    match n, f with
    | 0, 0 => simp [decAux] at hc
    | 0, _ + 1 => simp [decAux] at hc
    | m + 1, f' + 1 =>
      simp only [decAux, List.mem_append, List.mem_singleton] at hc
      rcases hc with hc | hc
      · have hdiv : (m + 1) / 10 < m + 1 := Nat.div_lt_self (by omega) (by omega)
        exact ih ((m + 1) / 10) hdiv f' (by omega) c hc
      · exact ⟨(m + 1) % 10, Nat.mod_lt _ (by omega), hc⟩

/-- Decimal digit characters are pairwise distinct. -/
theorem digitChar_inj (d e : ℕ) (hd : d < 10) (he : e < 10)
    (h : Char.ofNat (48 + d) = Char.ofNat (48 + e)) : d = e := by
  interval_cases d <;> interval_cases e <;> revert h <;> decide

/-- No digit character is the underscore. -/
theorem digitChar_ne_underscore (d : ℕ) (hd : d < 10) :
    Char.ofNat (48 + d) ≠ '_' := by
  interval_cases d <;> decide

/-- The underscore does not occur in a decimal rendering. -/
theorem underscore_not_mem_decimalChars (n : ℕ) :
    '_' ∉ decimalChars n := by
  unfold decimalChars
  by_cases h : n = 0
  · rw [if_pos h]
    decide
  · rw [if_neg h]
    intro hmem
    rcases decAux_digits n n le_rfl '_' hmem with ⟨d, hd, hc⟩
    exact digitChar_ne_underscore d hd hc.symm

/-- `decAux` determines its value (with adequate fuel). -/
theorem decAux_inj : ∀ (n m f g : ℕ), n ≤ f → m ≤ g →
    decAux f n = decAux g m → n = m := by
  intro n
  induction n using Nat.strong_induction_on with
  | _ n ih =>
    intro m f g hf hg heq
    match n, m with
    | 0, 0 => rfl
    | 0, m' + 1 =>
      have h0 : decAux f 0 = [] := by
        cases f <;> rfl
      rw [h0] at heq
      exact absurd ((decAux_eq_nil (m' + 1) g hg).mp heq.symm) (by omega)
    | n' + 1, 0 =>
      have h0 : decAux g 0 = [] := by
        cases g <;> rfl
      rw [h0] at heq
      exact absurd ((decAux_eq_nil (n' + 1) f hf).mp heq) (by omega)
    | n' + 1, m' + 1 =>
      match f, g with
      | f' + 1, g' + 1 =>
        simp only [decAux] at heq
        have hsplit := List.append_inj' heq (by rfl)
        have hhead : Char.ofNat (48 + (n' + 1) % 10) =
            Char.ofNat (48 + (m' + 1) % 10) := by
          have := hsplit.2
          simpa using this
        have hmod : (n' + 1) % 10 = (m' + 1) % 10 :=
          digitChar_inj _ _ (Nat.mod_lt _ (by omega)) (Nat.mod_lt _ (by omega))
            hhead
        have hdivlt : (n' + 1) / 10 < n' + 1 := Nat.div_lt_self (by omega) (by omega)
        have hdiv : (n' + 1) / 10 = (m' + 1) / 10 :=
          ih ((n' + 1) / 10) hdivlt ((m' + 1) / 10) f' g' (by omega) (by omega)
            hsplit.1
        have e1 := Nat.div_add_mod (n' + 1) 10
        have e2 := Nat.div_add_mod (m' + 1) 10
        omega

/-- A non-zero value has a decimal rendering other than `['0']`. -/
theorem decAux_ne_singleton_zero (m : ℕ) (hm : m ≠ 0) :
    decAux m m ≠ ['0'] := by
  match m with
  | m'' + 1 =>
    simp only [decAux]
    intro h
    have h' : decAux m'' ((m'' + 1) / 10) ++ [Char.ofNat (48 + (m'' + 1) % 10)] =
        ([] : List Char) ++ ['0'] := by simpa using h
    have hsplit := List.append_inj' h' (by rfl)
    have hmod : (m'' + 1) % 10 = 0 := by
      have hhead : Char.ofNat (48 + (m'' + 1) % 10) = Char.ofNat (48 + 0) := by
        have := hsplit.2
        simpa using this
      exact digitChar_inj _ _ (Nat.mod_lt _ (by omega)) (by omega) hhead
    have hdivlt : (m'' + 1) / 10 < m'' + 1 := Nat.div_lt_self (by omega) (by omega)
    have hdiv0 : (m'' + 1) / 10 = 0 :=
      (decAux_eq_nil ((m'' + 1) / 10) m'' (by omega)).mp hsplit.1
    have := Nat.div_add_mod (m'' + 1) 10
    omega

/-- The decimal rendering is injective. -/
theorem decimalChars_inj (n m : ℕ) (h : decimalChars n = decimalChars m) :
    n = m := by
  unfold decimalChars at h
  by_cases hn : n = 0 <;> by_cases hm : m = 0
  · omega
  · rw [if_pos hn, if_neg hm] at h
    exact absurd h.symm (decAux_ne_singleton_zero m hm)
  · rw [if_neg hn, if_pos hm] at h
    exact absurd h (decAux_ne_singleton_zero n hn)
  · rw [if_neg hn, if_neg hm] at h
    exact decAux_inj n m n m le_rfl le_rfl h

/-- Splitting a character list at an underscore separator is unambiguous
when neither prefix contains an underscore. -/
theorem sep_split : ∀ (a c b d : List Char), '_' ∉ a → '_' ∉ c →
    a ++ '_' :: b = c ++ '_' :: d → a = c ∧ b = d := by
  intro a
  induction a with
  | nil =>
    intro c b d _ hc h
    cases c with
    | nil =>
      simp only [List.nil_append] at h
      injection h with _ h2
      exact ⟨rfl, h2⟩
    | cons y c' =>
      simp only [List.nil_append, List.cons_append] at h
      have hy : y = '_' := by
        injection h with h1 _
        exact h1.symm
      exact absurd (hy ▸ List.mem_cons_self y c') hc
  | cons x a' ih =>
    intro c b d ha hc h
    cases c with
    | nil =>
      simp only [List.cons_append, List.nil_append] at h
      have hx : x = '_' := by
        injection h with h1 _
      exact absurd (hx ▸ List.mem_cons_self x a') ha
    | cons y c' =>
      simp only [List.cons_append] at h
      injection h with h1 h2
      have hrec := ih c' b d (fun hm => ha (List.mem_cons_of_mem x hm))
        (fun hm => hc (List.mem_cons_of_mem y hm)) h2
      refine ⟨?_, hrec.2⟩
      rw [h1, hrec.1]

/-- C2 (amended): two `add_job` calls receive distinct `job_id`s whenever
they differ in requester id, in integer submission second, or in
`hash(url) % 10000`; only calls agreeing on all three components collide
(see the counterexample for such a collision, which also overwrites the
earlier Job record). -/
theorem c2_jobid_unique (u1 t1 h1 u2 t2 h2 : ℕ)
    (hne : u1 ≠ u2 ∨ t1 ≠ t2 ∨ h1 % 10000 ≠ h2 % 10000) :
    mkJobId u1 t1 h1 ≠ mkJobId u2 t2 h2 := by
  intro heq
  unfold mkJobId at heq
  simp only [List.cons_append, List.append_assoc] at heq
  have s1 := sep_split (decimalChars u1) (decimalChars u2)
    (decimalChars t1 ++ '_' :: decimalChars (h1 % 10000))
    (decimalChars t2 ++ '_' :: decimalChars (h2 % 10000))
    (underscore_not_mem_decimalChars u1) (underscore_not_mem_decimalChars u2)
    heq
  have s2 := sep_split (decimalChars t1) (decimalChars t2)
    (decimalChars (h1 % 10000)) (decimalChars (h2 % 10000))
    (underscore_not_mem_decimalChars t1) (underscore_not_mem_decimalChars t2)
    s1.2
  rcases hne with hu | ht | hh
  · exact hu (decimalChars_inj u1 u2 s1.1)
  · exact ht (decimalChars_inj t1 t2 s2.1)
  · exact hh (decimalChars_inj (h1 % 10000) (h2 % 10000) s2.2)

/-- Witness for C2 (amended): requesters 1 and 2 submitting in the same
second with the same url hash still get distinct ids. -/
theorem c2_jobid_unique_witness :
    mkJobId 1 100 5 ≠ mkJobId 2 100 5 :=
  c2_jobid_unique 1 100 5 2 100 5 (Or.inl (by decide))

/-- Counterexample to C2 as stated: `job_id` is
`f"{user_id}_{int(time.time())}_{hash(url) % 10000}"`, so two distinct
`add_job` calls by requester 7 in the same second whose url hashes are
5 and 10005 (different urls, salts congruent mod 10000) receive the very
same id, and the second `self.jobs[job_id] = job` overwrites the first
record: after two same-id submissions the jobs table holds a single
record. -/
theorem c2_counterexample :
    mkJobId 7 100 5 = mkJobId 7 100 10005 ∧ (5 : ℕ) ≠ 10005 ∧
    (bumpJob (bumpJob [] 42) 42).length = 1 := by
  refine ⟨by decide, by decide, by decide⟩


/-! ## List-level lemmas for the scheduler model -/

/-- Pointwise-equal predicates give equal `any`. -/
theorem anyCongr {α : Type} {p q : α → Bool} :
    ∀ (l : List α), (∀ x ∈ l, p x = q x) → l.any p = l.any q := by
  intro l
  induction l with
  | nil => intro _; rfl
  | cons x xs ih =>
    intro h
    simp only [List.any_cons]
    rw [h x (by simp), ih (fun y hy => h y (List.mem_cons_of_mem x hy))]

/-- Setting an element to the value it already has changes nothing. -/
theorem set_same {α : Type} : ∀ (l : List α) (i : ℕ) (a : α),
    l[i]? = some a → l.set i a = l := by
  intro l
  induction l with
  | nil => intro i a h; simp at h
  | cons x xs ih =>
    intro i a h
    cases i with
    | zero =>
      simp only [List.getElem?_cons_zero, Option.some.injEq] at h
      rw [← h]
      rfl
    | succ i' =>
      simp only [List.getElem?_cons_succ] at h
      simp only [List.set_cons_succ]
      rw [ih i' a h]

/-- `countP` splits along a second predicate. -/
theorem countP_split {α : Type} (p q : α → Bool) :
    ∀ (l : List α), l.countP p =
      l.countP (fun a => p a && q a) + l.countP (fun a => p a && !q a) := by
  intro l
  induction l with
  | nil => rfl
  | cons x xs ih =>
    by_cases hp : p x = true <;> by_cases hq : q x = true <;>
      simp [List.countP_cons, hp, hq, ih] <;> omega

/-- `countP` bounded through a pointwise disjunction. -/
theorem countP_le_of_imp_or {α : Type} (p q r : α → Bool) :
    ∀ (l : List α), (∀ a ∈ l, p a = true → q a = true ∨ r a = true) →
      l.countP p ≤ l.countP q + l.countP r := by
  intro l
  induction l with
  | nil => intro _; simp
  | cons x xs ih =>
    intro h
    have hx := h x (by simp)
    have hxs := ih (fun a ha hp => h a (List.mem_cons_of_mem x ha) hp)
    by_cases hp : p x = true
    · rcases hx hp with hq | hr
      · simp [List.countP_cons, hp, hq]
        omega
      · simp [List.countP_cons, hp, hr]
        omega
    · have : p x = false := Bool.eq_false_iff.mpr hp
      simp [List.countP_cons, this]
      omega

/-- With pairwise-distinct keys, at most one record matches a key. -/
theorem countP_key_le_one (jobs : List JobRec) (k : ℕ)
    (h : (jobs.map (fun j => j.key)).Nodup) :
    jobs.countP (fun j => j.key == k) ≤ 1 := by
  induction jobs with
  | nil => simp
  | cons j rest ih =>
    simp only [List.map_cons, List.nodup_cons] at h
    by_cases hj : (j.key == k) = true
    · have hzero : rest.countP (fun j => j.key == k) = 0 := by
        rw [List.countP_eq_zero]
        intro j' hj'
        have hjk : j.key = k := by simpa using hj
        simp only [beq_iff_eq]
        intro hk
        exact h.1 (List.mem_map.mpr ⟨j', hj', by omega⟩)
      simp [List.countP_cons, hj, hzero]
    · have : (j.key == k) = false := Bool.eq_false_iff.mpr hj
      simp only [List.countP_cons, this, Bool.false_eq_true, if_false, Nat.add_zero]
      exact le_trans (ih h.2) (le_refl 1)

/-- `eraseActive` only shrinks the dict. -/
theorem length_eraseActive_le (a : List (ℕ × ℕ)) (k : ℕ) :
    (eraseActive a k).length ≤ a.length :=
  List.length_filter_le _ _

/-- Erasing a tracked key strictly shrinks the dict. -/
theorem length_eraseActive_lt (a : List (ℕ × ℕ)) (k : ℕ)
    (h : a.any (fun p => p.1 == k) = true) :
    (eraseActive a k).length < a.length := by
  rcases List.any_eq_true.mp h with ⟨p, hp, hk⟩
  unfold eraseActive
  rw [List.length_filter_lt_length_iff_exists]
  have hpk : p.1 = k := by simpa using hk
  exact ⟨p, hp, by simp [bne, hpk]⟩

/-- Erasing an untracked key changes nothing. -/
theorem eraseActive_of_not_tracked (a : List (ℕ × ℕ)) (k : ℕ)
    (h : a.any (fun p => p.1 == k) = false) :
    eraseActive a k = a := by
  unfold eraseActive
  apply List.filter_eq_self.mpr
  intro p hp
  have : (p.1 == k) = false := by
    by_contra hc
    rw [List.any_eq_false] at h
    exact (h p hp) (by simpa using hc)
  simp [bne, this]

/-- Other keys' tracking is unchanged by `eraseActive`. -/
theorem any_eraseActive_other (a : List (ℕ × ℕ)) (k k' : ℕ) (h : k' ≠ k) :
    (eraseActive a k).any (fun p => p.1 == k') =
      a.any (fun p => p.1 == k') := by
  unfold eraseActive
  rw [Bool.eq_iff_iff]
  simp only [List.any_eq_true, List.mem_filter]
  constructor
  · rintro ⟨p, ⟨hp, _⟩, hk⟩
    exact ⟨p, hp, hk⟩
  · rintro ⟨p, hp, hk⟩
    refine ⟨p, ⟨hp, ?_⟩, hk⟩
    simp only [beq_iff_eq] at hk
    simp [bne, hk, h]

/-- The erased key is untracked afterwards. -/
theorem any_eraseActive_self (a : List (ℕ × ℕ)) (k : ℕ) :
    (eraseActive a k).any (fun p => p.1 == k) = false := by
  unfold eraseActive
  rw [List.any_eq_false]
  intro p hp
  rcases List.mem_filter.mp hp with ⟨_, hne⟩
  simpa [bne] using hne

/-- `insertActive` grows the dict by at most one entry. -/
theorem length_insertActive_le (a : List (ℕ × ℕ)) (k t : ℕ) :
    (insertActive a k t).length ≤ a.length + 1 := by
  unfold insertActive
  by_cases h : a.any (fun p => p.1 == k) = true
  · rw [if_pos h]
    simp
  · rw [if_neg h]
    simp

/-- The inserted key is tracked. -/
theorem any_insertActive_self (a : List (ℕ × ℕ)) (k t : ℕ) :
    (insertActive a k t).any (fun p => p.1 == k) = true := by
  unfold insertActive
  by_cases h : a.any (fun p => p.1 == k) = true
  · rw [if_pos h]
    rcases List.any_eq_true.mp h with ⟨p, hp, hk⟩
    exact List.any_eq_true.mpr ⟨(k, t), List.mem_map.mpr ⟨p, hp, by simp [hk]⟩,
      by simp⟩
  · rw [if_neg h]
    exact List.any_eq_true.mpr ⟨(k, t), by simp, by simp⟩

/-- Other keys' tracking is unchanged by `insertActive`. -/
theorem any_insertActive_other (a : List (ℕ × ℕ)) (k t k' : ℕ) (h : k' ≠ k) :
    (insertActive a k t).any (fun p => p.1 == k') =
      a.any (fun p => p.1 == k') := by
  unfold insertActive
  by_cases hk : a.any (fun p => p.1 == k) = true
  · rw [if_pos hk, List.any_map]
    apply anyCongr
    intro p _
    simp only [Function.comp_apply]
    by_cases hp : (p.1 == k) = true
    · rw [if_pos hp]
      have hp' : p.1 = k := by simpa using hp
      have h1 : ((k, t).1 == k') = false := by
        simp only [beq_eq_false_iff_ne, ne_eq]
        omega
      have h2 : (p.1 == k') = false := by
        simp only [beq_eq_false_iff_ne, ne_eq]
        omega
      rw [h1, h2]
    · rw [if_neg hp]
  · rw [if_neg hk, List.any_append]
    have hfalse : ((k, t).1 == k') = false := by
      simp only [beq_eq_false_iff_ne, ne_eq]
      omega
    simp [hfalse]

/-- `cancelFrom` preserves keys and gens and only turns `running` into
`cancelledT`. -/
theorem mem_cancelFrom (a : List (ℕ × ℕ)) :
    ∀ (l : List TaskRec) (i : ℕ) (t' : TaskRec), t' ∈ cancelFrom a i l →
      ∃ t ∈ l, t'.key = t.key ∧ t'.gen = t.gen ∧
        (t' = t ∨ (t.st = .running ∧ t' = { t with st := .cancelledT })) := by
  intro l
  induction l with
  | nil => intro i t' h; simp [cancelFrom] at h
  | cons t0 rest ih =>
    intro i t' h
    simp only [cancelFrom, List.mem_cons] at h
    rcases h with h | h
    · by_cases hc : (a.any (fun q => q.2 == i) && t0.st == TState.running) = true
      · rw [if_pos hc] at h
        refine ⟨t0, by simp, by rw [h], by rw [h], Or.inr ⟨?_, h⟩⟩
        have := (Bool.and_eq_true _ _).mp hc
        simpa using this.2
      · rw [if_neg hc] at h
        exact ⟨t0, by simp, by rw [h], by rw [h], Or.inl h⟩
    · rcases ih (i + 1) t' h with ⟨t, ht, h1, h2, h3⟩
      exact ⟨t, List.mem_cons_of_mem t0 ht, h1, h2, h3⟩

/-- `cancelFrom` leaves the key list unchanged. -/
theorem map_key_cancelFrom (a : List (ℕ × ℕ)) :
    ∀ (l : List TaskRec) (i : ℕ),
      (cancelFrom a i l).map (fun t => t.key) = l.map (fun t => t.key) := by
  intro l
  induction l with
  | nil => intro i; rfl
  | cons t0 rest ih =>
    intro i
    simp only [cancelFrom, List.map_cons]
    rw [ih (i + 1)]
    by_cases hc : (a.any (fun q => q.2 == i) && t0.st == TState.running) = true
    · rw [if_pos hc]
    · rw [if_neg hc]

/-- Elementwise view of `cancelFrom`. -/
theorem getElem?_cancelFrom (a : List (ℕ × ℕ)) :
    ∀ (l : List TaskRec) (i j : ℕ),
      (cancelFrom a i l)[j]? = (l[j]?).map (fun t =>
        if a.any (fun q => q.2 == (i + j)) && t.st == TState.running then
          { t with st := TState.cancelledT }
        else t) := by
  intro l
  induction l with
  | nil => intro i j; simp [cancelFrom]
  | cons t0 rest ih =>
    intro i j
    cases j with
    | zero =>
      simp [cancelFrom]
    | succ j' =>
      simp only [cancelFrom, List.getElem?_cons_succ]
      rw [ih (i + 1) j']
      have : i + 1 + j' = i + (j' + 1) := by omega
      rw [this]

/-- `find?` through a key-preserving map. -/
theorem findJob_map (f : JobRec → JobRec) (hf : ∀ j, (f j).key = j.key) :
    ∀ (jobs : List JobRec) (k : ℕ),
      findJob (jobs.map f) k = (findJob jobs k).map f := by
  intro jobs k
  induction jobs with
  | nil => rfl
  | cons j rest ih =>
    unfold findJob at *
    simp only [List.map_cons, List.find?_cons]
    rw [hf j]
    by_cases h : (j.key == k) = true
    · rw [h]; rfl
    · rw [Bool.eq_false_iff.mpr h]
      simpa using ih

/-- Looking up an unchanged key through `setStatus`. -/
theorem findJob_setStatus_ne (jobs : List JobRec) (k k' : ℕ) (st : JStatus)
    (h : k' ≠ k) : findJob (setStatus jobs k st) k' = findJob jobs k' := by
  unfold setStatus
  rw [findJob_map _ (fun j => by by_cases hj : (j.key == k) = true <;> simp [hj])]
  cases hfind : findJob jobs k' with
  | none => rfl
  | some j =>
    have hk : (j.key == k') = true := by
      have hfind' := hfind
      unfold findJob at hfind'
      have hk0 := List.find?_some hfind'
      simpa using hk0
    have hne : (j.key == k) = false := by
      simp only [beq_iff_eq] at hk
      simp only [beq_eq_false_iff_ne, ne_eq]
      omega
    simp only [Option.map_some']
    rw [if_neg (by simp [hne])]

/-- Looking up the changed key through `setStatus`. -/
theorem findJob_setStatus_self (jobs : List JobRec) (k : ℕ) (st : JStatus)
    (j : JobRec) (h : findJob jobs k = some j) :
    findJob (setStatus jobs k st) k = some { j with status := st } := by
  unfold setStatus
  rw [findJob_map _ (fun j => by by_cases hj : (j.key == k) = true <;> simp [hj])]
  rw [h]
  have hk : j.key = k := by
    have h' := h
    unfold findJob at h'
    have hk0 := List.find?_some h'
    simpa using hk0
  simp [hk]

/-- A found key is still found, with the same record, after appending. -/
theorem findJob_append (jobs l : List JobRec) (k : ℕ) (j : JobRec)
    (h : findJob jobs k = some j) : findJob (jobs ++ l) k = some j := by
  unfold findJob at *
  rw [List.find?_append, h]
  rfl

/-- An absent key resolves in the appended suffix. -/
theorem findJob_append_none (jobs l : List JobRec) (k : ℕ)
    (h : findJob jobs k = none) : findJob (jobs ++ l) k = findJob l k := by
  unfold findJob at *
  rw [List.find?_append, h]
  rfl

/-- `findJob` misses exactly the keys of no record. -/
theorem findJob_eq_none (jobs : List JobRec) (k : ℕ) :
    findJob jobs k = none ↔ ∀ j ∈ jobs, j.key ≠ k := by
  unfold findJob
  rw [List.find?_eq_none]
  constructor
  · intro h j hj
    have := h j hj
    simpa using this
  · intro h j hj
    simpa using h j hj

/-- A fresh submission appends a new `PENDING` record. -/
theorem bumpJob_fresh (jobs : List JobRec) (k : ℕ)
    (h : findJob jobs k = none) :
    bumpJob jobs k = jobs ++ [{ key := k, gen := 1, status := .pending }] := by
  unfold bumpJob
  have hno : ¬ ((jobs.any (fun j => j.key == k)) = true) := by
    intro hc
    rcases List.any_eq_true.mp hc with ⟨j, hj, hk⟩
    exact ((findJob_eq_none jobs k).mp h j hj) (by simpa using hk)
  rw [if_neg hno]

/-- With pairwise-distinct keys, a member is what its key finds. -/
theorem findJob_of_mem_nodup :
    ∀ (jobs : List JobRec), (jobs.map (fun j => j.key)).Nodup →
      ∀ j ∈ jobs, findJob jobs j.key = some j := by
  intro jobs
  induction jobs with
  | nil => intro _ j hj; simp at hj
  | cons j0 rest ih =>
    intro hnd j hj
    simp only [List.map_cons, List.nodup_cons] at hnd
    rcases List.mem_cons.mp hj with rfl | hmem
    · unfold findJob
      simp [List.find?_cons]
    · unfold findJob
      rw [List.find?_cons]
      have hne : (j0.key == j.key) = false := by
        simp only [beq_eq_false_iff_ne, ne_eq]
        intro hc
        exact hnd.1 (List.mem_map.mpr ⟨j, hmem, hc.symm⟩)
      rw [hne]
      exact ih hnd.2 j hmem

/-- `setStatus` leaves the key list unchanged. -/
theorem map_key_setStatus (jobs : List JobRec) (k : ℕ) (st : JStatus) :
    (setStatus jobs k st).map (fun j => j.key) = jobs.map (fun j => j.key) := by
  unfold setStatus
  rw [List.map_map]
  apply List.map_congr_left
  intro j _
  simp only [Function.comp_apply]
  by_cases h : (j.key == k) = true
  · rw [if_pos h]
  · rw [if_neg h]

/-- Updating a task's state leaves the task key list unchanged. -/
theorem map_key_set_st (tasks : List TaskRec) (i : ℕ) (t : TaskRec)
    (x : TState) (h : tasks[i]? = some t) :
    (tasks.set i { t with st := x }).map (fun t => t.key) =
      tasks.map (fun t => t.key) := by
  rw [List.map_set]
  apply set_same
  rw [List.getElem?_map, h]
  rfl

/-- A fresh `PENDING` record adds nothing to the untracked-Processing
count. -/
theorem stuckOf_append_pending (jobs : List JobRec) (a : List (ℕ × ℕ))
    (k g : ℕ) :
    stuckOf (jobs ++ [{ key := k, gen := g, status := .pending }]) a =
      stuckOf jobs a := by
  unfold stuckOf
  rw [List.countP_append]
  simp [isProcessing]

/-- Dispatching (mark `k` Processing, track it) does not increase the
untracked-Processing count. -/
theorem stuckOf_dispatch_le (jobs : List JobRec) (a : List (ℕ × ℕ))
    (k t : ℕ) :
    stuckOf (setStatus jobs k .processing) (insertActive a k t) ≤
      stuckOf jobs a := by
  unfold stuckOf setStatus
  rw [List.countP_map]
  apply List.countP_mono_left
  intro j _ hj
  simp only [Function.comp_apply] at hj
  by_cases hk : (j.key == k) = true
  · exfalso
    rw [if_pos hk] at hj
    have : ((insertActive a k t).any (fun p => p.1 == j.key)) = true := by
      have hk' : j.key = k := by simpa using hk
      rw [hk']
      exact any_insertActive_self a k t
    simp [this] at hj
  · rw [if_neg hk] at hj
    have hk' : j.key ≠ k := by simpa using hk
    rwa [any_insertActive_other a k t j.key hk'] at hj

/-- Writing a non-Processing status never increases the
untracked-Processing count (same tracking dict). -/
theorem stuckOf_setStatus_le (jobs : List JobRec) (a : List (ℕ × ℕ))
    (k : ℕ) (st : JStatus) (hst : isProcessing st = false) :
    stuckOf (setStatus jobs k st) a ≤ stuckOf jobs a := by
  unfold stuckOf setStatus
  rw [List.countP_map]
  apply List.countP_mono_left
  intro j _ hj
  simp only [Function.comp_apply] at hj
  by_cases hk : (j.key == k) = true
  · exfalso
    rw [if_pos hk] at hj
    simp [hst] at hj
  · rwa [if_neg hk] at hj

/-- Erasing a key from the tracking dict raises the untracked-Processing
count by at most the number of records under that key. -/
theorem stuckOf_erase_le (jobs : List JobRec) (a : List (ℕ × ℕ)) (k : ℕ) :
    stuckOf jobs (eraseActive a k) ≤
      stuckOf jobs a + jobs.countP (fun j => j.key == k) := by
  unfold stuckOf
  apply countP_le_of_imp_or
  intro j _ hj
  by_cases hk : j.key = k
  · right
    simpa using hk
  · left
    rwa [any_eraseActive_other a k j.key hk] at hj

/-- Failing a job and untracking it never increases the
untracked-Processing count. -/
theorem stuckOf_cbErr_le (jobs : List JobRec) (a : List (ℕ × ℕ)) (k : ℕ)
    (msg : String) :
    stuckOf (setStatus jobs k (.failed msg)) (eraseActive a k) ≤
      stuckOf jobs a := by
  unfold stuckOf setStatus
  rw [List.countP_map]
  apply List.countP_mono_left
  intro j _ hj
  simp only [Function.comp_apply] at hj
  by_cases hk : (j.key == k) = true
  · exfalso
    rw [if_pos hk] at hj
    simp [isProcessing] at hj
  · rw [if_neg hk] at hj
    have hk' : j.key ≠ k := by simpa using hk
    rwa [any_eraseActive_other a k j.key hk'] at hj

/-- Untracking a key whose record is already `COMPLETED` keeps the
untracked-Processing count at zero. -/
theorem stuckOf_erase_completed (jobs : List JobRec) (a : List (ℕ × ℕ))
    (k : ℕ) (j : JobRec) (hnd : (jobs.map (fun j => j.key)).Nodup)
    (hj : findJob jobs k = some j) (hc : j.status = .completed)
    (h0 : stuckOf jobs a = 0) : stuckOf jobs (eraseActive a k) = 0 := by
  unfold stuckOf at *
  rw [List.countP_eq_zero] at *
  intro j' hj'
  by_cases hk : j'.key = k
  · have hfound := findJob_of_mem_nodup jobs hnd j' hj'
    rw [hk, hj] at hfound
    have hjj : j' = j := by
      injection hfound with hv
      exact hv.symm
    rw [hjj, hc]
    simp [isProcessing]
  · intro hcontra
    rw [any_eraseActive_other a k j'.key hk] at hcontra
    exact (h0 j' hj') hcontra

/-- Inductive invariant of the scheduler under collision-free ids.
`sumLe`/`waitingLt` bound the tracked executions plus the
untracked-Processing jobs; the remaining fields are the structural facts
that keep that bound inductive. -/
structure SchedInv (maxC : ℕ) (s : SState) : Prop where
  sumLe : s.active.length + stuckCount s ≤ maxC
  waitingLt : s.pc = .waiting → s.active.length + stuckCount s + 1 ≤ maxC
  stuckRun : s.running = true → stuckCount s = 0
  noCancel : s.running = true → ∀ t ∈ s.tasks, t.st ≠ .cancelledT
  doneOkDone : ∀ t ∈ s.tasks, t.st = .doneOk →
    ∃ j, findJob s.jobs t.key = some j ∧ j.status = .completed
  genCur : ∀ t ∈ s.tasks, ∃ j, findJob s.jobs t.key = some j ∧ t.gen = j.gen
  taskKeys : (s.tasks.map (fun t => t.key)).Nodup
  queueFresh : ∀ k ∈ s.queue, (∀ t ∈ s.tasks, t.key ≠ k) ∧
    findJob s.jobs k ≠ none
  queueNodup : s.queue.Nodup
  jobKeys : (s.jobs.map (fun j => j.key)).Nodup

/-- The invariant holds in the initial state. -/
theorem schedInv_init (maxC : ℕ) : SchedInv maxC init := by
  refine ⟨?_, ?_, ?_, ?_, ?_, ?_, ?_, ?_, ?_, ?_⟩ <;>
    simp [init, stuckCount, stuckOf]

/-- One collision-free step preserves the invariant. -/
theorem schedInv_step {maxC : ℕ} {s s' : SState} {l : Lab}
    (hs : Step maxC s l s') (hf : FreshLab s l) (hi : SchedInv maxC s) :
    SchedInv maxC s' := by
  cases hs with
  | submit k =>
    have hfr : findJob s.jobs k = none := hf
    have hb := bumpJob_fresh s.jobs k hfr
    have hstuck :
        stuckCount { s with jobs := bumpJob s.jobs k, queue := s.queue ++ [k] }
          = stuckCount s := by
      simp only [stuckCount, hb]
      exact stuckOf_append_pending s.jobs s.active k 1
    refine ⟨?_, ?_, ?_, ?_, ?_, ?_, ?_, ?_, ?_, ?_⟩
    · simpa [hstuck] using hi.sumLe
    · intro hpc
      rw [hstuck]
      exact hi.waitingLt hpc
    · intro hrun
      rw [hstuck]
      exact hi.stuckRun hrun
    · intro hrun
      exact hi.noCancel hrun
    · intro t ht hst
      rcases hi.doneOkDone t ht hst with ⟨j, hj, hc⟩
      exact ⟨j, by simpa [hb] using findJob_append s.jobs _ t.key j hj, hc⟩
    · intro t ht
      rcases hi.genCur t ht with ⟨j, hj, hg⟩
      exact ⟨j, by simpa [hb] using findJob_append s.jobs _ t.key j hj, hg⟩
    · exact hi.taskKeys
    · intro k' hk'
      simp only [List.mem_append, List.mem_singleton] at hk'
      rcases hk' with hk' | rfl
      · rcases hi.queueFresh k' hk' with ⟨h1, h2⟩
        refine ⟨h1, ?_⟩
        cases hfind : findJob s.jobs k' with
        | none => exact absurd hfind h2
        | some j =>
          rw [hb, findJob_append s.jobs _ k' j hfind]
          simp
      · refine ⟨?_, ?_⟩
        · intro t ht hc
          rcases hi.genCur t ht with ⟨j, hj, _⟩
          rw [hc] at hj
          rw [hfr] at hj
          cases hj
        · rw [hb, findJob_append_none s.jobs _ k' hfr]
          unfold findJob
          simp
    · rw [List.nodup_append]
      refine ⟨hi.queueNodup, List.nodup_singleton k, ?_⟩
      intro a ha hb'
      simp only [List.mem_singleton] at hb'
      subst hb'
      exact (hi.queueFresh a ha).2 hfr
    · rw [hb, List.map_append]
      rw [List.nodup_append]
      refine ⟨hi.jobKeys, by simp, ?_⟩
      intro x hx hy
      simp only [List.map_cons, List.map_nil, List.mem_singleton] at hy
      rcases List.mem_map.mp hx with ⟨j, hj, hk⟩
      rw [hy] at hk
      exact ((findJob_eq_none s.jobs k).mp hfr j hj) hk
  | loopEnter h1 h2 h3 =>
    have hz := hi.stuckRun h2
    refine ⟨?_, ?_, ?_, hi.noCancel, hi.doneOkDone, hi.genCur, hi.taskKeys,
      hi.queueFresh, hi.queueNodup, hi.jobKeys⟩
    · exact hi.sumLe
    · intro _
      show s.active.length + stuckCount s + 1 ≤ maxC
      rw [hz]
      omega
    · intro hrun
      exact hi.stuckRun hrun
  | loopExit h1 h2 =>
    refine ⟨hi.sumLe, ?_, hi.stuckRun, hi.noCancel, hi.doneOkDone, hi.genCur,
      hi.taskKeys, hi.queueFresh, hi.queueNodup, hi.jobKeys⟩
    intro hpc
    simp at hpc
  | wtimeout h1 =>
    refine ⟨hi.sumLe, ?_, hi.stuckRun, hi.noCancel, hi.doneOkDone, hi.genCur,
      hi.taskKeys, hi.queueFresh, hi.queueNodup, hi.jobKeys⟩
    intro hpc
    simp at hpc
  | dispatch k rest h1 h2 h3 =>
    obtain ⟨j0, hj0⟩ : ∃ j0, findJob s.jobs k = some j0 := by
      cases hfind : findJob s.jobs k with
      | none => exact absurd hfind h3
      | some j => exact ⟨j, rfl⟩
    have hkq : k ∈ s.queue := by rw [h2]; simp
    have hqf := hi.queueFresh k hkq
    have hknotrest : k ∉ rest := by
      have hnd := hi.queueNodup
      rw [h2] at hnd
      exact (List.nodup_cons.mp hnd).1
    have hrestnd : rest.Nodup := by
      have hnd := hi.queueNodup
      rw [h2] at hnd
      exact (List.nodup_cons.mp hnd).2
    have hrest_sub : ∀ k' ∈ rest, k' ∈ s.queue := by
      intro k' hk'
      rw [h2]
      exact List.mem_cons_of_mem k hk'
    have hS := stuckOf_dispatch_le s.jobs s.active k s.tasks.length
    have hA := length_insertActive_le s.active k s.tasks.length
    have hw : s.active.length + stuckOf s.jobs s.active + 1 ≤ maxC :=
      hi.waitingLt h1
    refine ⟨?_, ?_, ?_, ?_, ?_, ?_, ?_, ?_, ?_, ?_⟩
    · show (insertActive s.active k s.tasks.length).length +
        stuckOf (setStatus s.jobs k JStatus.processing)
          (insertActive s.active k s.tasks.length) ≤ maxC
      omega
    · intro hpc
      simp at hpc
    · intro hrun
      have hz : stuckOf s.jobs s.active = 0 := hi.stuckRun hrun
      show stuckOf (setStatus s.jobs k JStatus.processing)
        (insertActive s.active k s.tasks.length) = 0
      omega
    · intro hrun t ht
      rcases List.mem_append.mp ht with hold | hnew
      · exact hi.noCancel hrun t hold
      · simp only [List.mem_singleton] at hnew
        rw [hnew]
        simp
    · intro t ht hst
      rcases List.mem_append.mp ht with hold | hnew
      · rcases hi.doneOkDone t hold hst with ⟨j, hj, hc⟩
        refine ⟨j, ?_, hc⟩
        rw [findJob_setStatus_ne s.jobs k t.key JStatus.processing
          (hqf.1 t hold)]
        exact hj
      · simp only [List.mem_singleton] at hnew
        rw [hnew] at hst
        cases hst
    · intro t ht
      rcases List.mem_append.mp ht with hold | hnew
      · rcases hi.genCur t hold with ⟨j, hj, hg⟩
        refine ⟨j, ?_, hg⟩
        rw [findJob_setStatus_ne s.jobs k t.key JStatus.processing
          (hqf.1 t hold)]
        exact hj
      · simp only [List.mem_singleton] at hnew
        rw [hnew]
        refine ⟨{ j0 with status := JStatus.processing },
          findJob_setStatus_self s.jobs k JStatus.processing j0 hj0, ?_⟩
        unfold currentGen
        rw [hj0]
    · rw [List.map_append]
      rw [List.nodup_append]
      refine ⟨hi.taskKeys, by simp, ?_⟩
      intro x hx hy
      simp only [List.map_cons, List.map_nil, List.mem_singleton] at hy
      rcases List.mem_map.mp hx with ⟨t, ht, hk⟩
      rw [hy] at hk
      exact (hqf.1 t ht) hk
    · intro k' hk'
      have hk'q := hrest_sub k' hk'
      have hne : k' ≠ k := by
        intro hc
        rw [hc] at hk'
        exact hknotrest hk'
      refine ⟨?_, ?_⟩
      · intro t ht
        rcases List.mem_append.mp ht with hold | hnew
        · exact (hi.queueFresh k' hk'q).1 t hold
        · simp only [List.mem_singleton] at hnew
          rw [hnew]
          simp only [ne_eq]
          omega
      · rw [findJob_setStatus_ne s.jobs k k' JStatus.processing hne]
        exact (hi.queueFresh k' hk'q).2
    · exact hrestnd
    · rw [map_key_setStatus]
      exact hi.jobKeys
  | ghostDispatch k rest h1 h2 h3 =>
    have hrestnd : rest.Nodup := by
      have hnd := hi.queueNodup
      rw [h2] at hnd
      exact (List.nodup_cons.mp hnd).2
    refine ⟨hi.sumLe, ?_, hi.stuckRun, hi.noCancel, hi.doneOkDone, hi.genCur,
      hi.taskKeys, ?_, hrestnd, hi.jobKeys⟩
    · intro hpc
      simp at hpc
    · intro k' hk'
      exact hi.queueFresh k' (by rw [h2]; exact List.mem_cons_of_mem k hk')
  | bodyOk i t h1 h2 =>
    have htmem : t ∈ s.tasks := List.getElem?_mem h1
    obtain ⟨j1, hj1, hg1⟩ := hi.genCur t htmem
    have hcond : (t.gen == currentGen s.jobs t.key) = true := by
      unfold currentGen
      rw [hj1]
      simpa using hg1
    rw [hcond]
    simp only [if_true]
    have hS := stuckOf_setStatus_le s.jobs s.active t.key JStatus.completed rfl
    refine ⟨?_, ?_, ?_, ?_, ?_, ?_, ?_, ?_, ?_, ?_⟩
    · show s.active.length +
        stuckOf (setStatus s.jobs t.key JStatus.completed) s.active ≤ maxC
      have := hi.sumLe
      have hbase : s.active.length + stuckOf s.jobs s.active ≤ maxC := this
      omega
    · intro hpc
      have := hi.waitingLt hpc
      have hbase : s.active.length + stuckOf s.jobs s.active + 1 ≤ maxC := this
      show s.active.length +
        stuckOf (setStatus s.jobs t.key JStatus.completed) s.active + 1 ≤ maxC
      omega
    · intro hrun
      have hz : stuckOf s.jobs s.active = 0 := hi.stuckRun hrun
      show stuckOf (setStatus s.jobs t.key JStatus.completed) s.active = 0
      omega
    · intro hrun t' ht'
      rcases List.mem_or_eq_of_mem_set ht' with hold | hnew
      · exact hi.noCancel hrun t' hold
      · rw [hnew]
        simp
    · intro t' ht' hst
      rcases List.mem_or_eq_of_mem_set ht' with hold | hnew
      · rcases hi.doneOkDone t' hold hst with ⟨j', hj', hc'⟩
        by_cases hkey : t'.key = t.key
        · rw [hkey]
          exact ⟨{ j1 with status := JStatus.completed },
            findJob_setStatus_self s.jobs t.key JStatus.completed j1 hj1, rfl⟩
        · refine ⟨j', ?_, hc'⟩
          rw [findJob_setStatus_ne s.jobs t.key t'.key JStatus.completed hkey]
          exact hj'
      · rw [hnew]
        exact ⟨{ j1 with status := JStatus.completed },
          findJob_setStatus_self s.jobs t.key JStatus.completed j1 hj1, rfl⟩
    · intro t' ht'
      rcases List.mem_or_eq_of_mem_set ht' with hold | hnew
      · rcases hi.genCur t' hold with ⟨j', hj', hg'⟩
        by_cases hkey : t'.key = t.key
        · rw [hkey] at hj' ⊢
          rw [hj1] at hj'
          have hjj : j' = j1 := by
            injection hj' with hv
            exact hv.symm
          refine ⟨{ j1 with status := JStatus.completed },
            findJob_setStatus_self s.jobs t.key JStatus.completed j1 hj1, ?_⟩
          rw [hg', hjj]
        · refine ⟨j', ?_, hg'⟩
          rw [findJob_setStatus_ne s.jobs t.key t'.key JStatus.completed hkey]
          exact hj'
      · rw [hnew]
        refine ⟨{ j1 with status := JStatus.completed },
          findJob_setStatus_self s.jobs t.key JStatus.completed j1 hj1, hg1⟩
    · show ((s.tasks.set i { t with st := TState.doneOk }).map
        (fun t => t.key)).Nodup
      rw [map_key_set_st s.tasks i t TState.doneOk h1]
      exact hi.taskKeys
    · intro k' hk'
      have hold := hi.queueFresh k' hk'
      refine ⟨?_, ?_⟩
      · intro t' ht'
        rcases List.mem_or_eq_of_mem_set ht' with holdm | hnew
        · exact hold.1 t' holdm
        · rw [hnew]
          exact hold.1 t htmem
      · rw [findJob_setStatus_ne s.jobs t.key k' JStatus.completed
          (fun hc => (hold.1 t htmem) hc.symm)]
        exact hold.2
    · exact hi.queueNodup
    · rw [map_key_setStatus]
      exact hi.jobKeys
  | bodyErr i t msg h1 h2 =>
    have htmem : t ∈ s.tasks := List.getElem?_mem h1
    refine ⟨hi.sumLe, hi.waitingLt, hi.stuckRun, ?_, ?_, ?_, ?_, ?_,
      hi.queueNodup, hi.jobKeys⟩
    · intro hrun t' ht'
      rcases List.mem_or_eq_of_mem_set ht' with hold | hnew
      · exact hi.noCancel hrun t' hold
      · rw [hnew]
        simp
    · intro t' ht' hst
      rcases List.mem_or_eq_of_mem_set ht' with hold | hnew
      · exact hi.doneOkDone t' hold hst
      · rw [hnew] at hst
        cases hst
    · intro t' ht'
      rcases List.mem_or_eq_of_mem_set ht' with hold | hnew
      · exact hi.genCur t' hold
      · rw [hnew]
        exact hi.genCur t htmem
    · show ((s.tasks.set i { t with st := TState.doneErr msg }).map
        (fun t => t.key)).Nodup
      rw [map_key_set_st s.tasks i t (TState.doneErr msg) h1]
      exact hi.taskKeys
    · intro k' hk'
      have hold := hi.queueFresh k' hk'
      refine ⟨?_, hold.2⟩
      intro t' ht'
      rcases List.mem_or_eq_of_mem_set ht' with holdm | hnew
      · exact hold.1 t' holdm
      · rw [hnew]
        exact hold.1 t htmem
  | cbOk i t h1 h2 =>
    have htmem : t ∈ s.tasks := List.getElem?_mem h1
    obtain ⟨j1, hj1, hc1⟩ := hi.doneOkDone t htmem h2
    have hsum : (eraseActive s.active t.key).length +
        stuckOf s.jobs (eraseActive s.active t.key) ≤
        s.active.length + stuckOf s.jobs s.active := by
      by_cases htr : s.active.any (fun p => p.1 == t.key) = true
      · have hAlt := length_eraseActive_lt s.active t.key htr
        have hSle := stuckOf_erase_le s.jobs s.active t.key
        have hcnt := countP_key_le_one s.jobs t.key hi.jobKeys
        omega
      · rw [eraseActive_of_not_tracked s.active t.key
          (Bool.not_eq_true _ |>.mp htr)]
    refine ⟨?_, ?_, ?_, ?_, ?_, ?_, ?_, ?_, hi.queueNodup, hi.jobKeys⟩
    · show (eraseActive s.active t.key).length +
        stuckOf s.jobs (eraseActive s.active t.key) ≤ maxC
      have hbase : s.active.length + stuckOf s.jobs s.active ≤ maxC := hi.sumLe
      omega
    · intro hpc
      have hbase : s.active.length + stuckOf s.jobs s.active + 1 ≤ maxC :=
        hi.waitingLt hpc
      show (eraseActive s.active t.key).length +
        stuckOf s.jobs (eraseActive s.active t.key) + 1 ≤ maxC
      omega
    · intro hrun
      show stuckOf s.jobs (eraseActive s.active t.key) = 0
      exact stuckOf_erase_completed s.jobs s.active t.key j1 hi.jobKeys hj1
        hc1 (hi.stuckRun hrun)
    · intro hrun t' ht'
      rcases List.mem_or_eq_of_mem_set ht' with hold | hnew
      · exact hi.noCancel hrun t' hold
      · rw [hnew]
        simp
    · intro t' ht' hst
      rcases List.mem_or_eq_of_mem_set ht' with hold | hnew
      · exact hi.doneOkDone t' hold hst
      · rw [hnew] at hst
        cases hst
    · intro t' ht'
      rcases List.mem_or_eq_of_mem_set ht' with hold | hnew
      · exact hi.genCur t' hold
      · rw [hnew]
        exact hi.genCur t htmem
    · show ((s.tasks.set i { t with st := TState.reaped }).map
        (fun t => t.key)).Nodup
      rw [map_key_set_st s.tasks i t TState.reaped h1]
      exact hi.taskKeys
    · intro k' hk'
      have hold := hi.queueFresh k' hk'
      refine ⟨?_, hold.2⟩
      intro t' ht'
      rcases List.mem_or_eq_of_mem_set ht' with holdm | hnew
      · exact hold.1 t' holdm
      · rw [hnew]
        exact hold.1 t htmem
  | cbErr i t msg h1 h2 =>
    have htmem : t ∈ s.tasks := List.getElem?_mem h1
    obtain ⟨j1, hj1, hg1⟩ := hi.genCur t htmem
    have hS := stuckOf_cbErr_le s.jobs s.active t.key msg
    have hA := length_eraseActive_le s.active t.key
    refine ⟨?_, ?_, ?_, ?_, ?_, ?_, ?_, ?_, hi.queueNodup, ?_⟩
    · show (eraseActive s.active t.key).length +
        stuckOf (setStatus s.jobs t.key (JStatus.failed msg))
          (eraseActive s.active t.key) ≤ maxC
      have hbase : s.active.length + stuckOf s.jobs s.active ≤ maxC := hi.sumLe
      omega
    · intro hpc
      have hbase : s.active.length + stuckOf s.jobs s.active + 1 ≤ maxC :=
        hi.waitingLt hpc
      show (eraseActive s.active t.key).length +
        stuckOf (setStatus s.jobs t.key (JStatus.failed msg))
          (eraseActive s.active t.key) + 1 ≤ maxC
      omega
    · intro hrun
      have hz : stuckOf s.jobs s.active = 0 := hi.stuckRun hrun
      show stuckOf (setStatus s.jobs t.key (JStatus.failed msg))
        (eraseActive s.active t.key) = 0
      omega
    · intro hrun t' ht'
      rcases List.mem_or_eq_of_mem_set ht' with hold | hnew
      · exact hi.noCancel hrun t' hold
      · rw [hnew]
        simp
    · intro t' ht' hst
      rcases List.mem_or_eq_of_mem_set ht' with hold | hnew
      · rcases hi.doneOkDone t' hold hst with ⟨j', hj', hc'⟩
        have htne : t' ≠ t := by
          intro hc
          rw [hc] at hst
          rw [h2] at hst
          cases hst
        have hkey : t'.key ≠ t.key := by
          intro hc
          exact htne (List.inj_on_of_nodup_map hi.taskKeys hold htmem hc)
        refine ⟨j', ?_, hc'⟩
        rw [findJob_setStatus_ne s.jobs t.key t'.key (JStatus.failed msg) hkey]
        exact hj'
      · rw [hnew] at hst
        cases hst
    · intro t' ht'
      rcases List.mem_or_eq_of_mem_set ht' with hold | hnew
      · rcases hi.genCur t' hold with ⟨j', hj', hg'⟩
        by_cases hkey : t'.key = t.key
        · rw [hkey] at hj' ⊢
          rw [hj1] at hj'
          have hjj : j' = j1 := by
            injection hj' with hv
            exact hv.symm
          refine ⟨{ j1 with status := JStatus.failed msg },
            findJob_setStatus_self s.jobs t.key (JStatus.failed msg) j1 hj1, ?_⟩
          rw [hg', hjj]
        · refine ⟨j', ?_, hg'⟩
          rw [findJob_setStatus_ne s.jobs t.key t'.key (JStatus.failed msg) hkey]
          exact hj'
      · rw [hnew]
        refine ⟨{ j1 with status := JStatus.failed msg },
          findJob_setStatus_self s.jobs t.key (JStatus.failed msg) j1 hj1, hg1⟩
    · show ((s.tasks.set i { t with st := TState.reaped }).map
        (fun t => t.key)).Nodup
      rw [map_key_set_st s.tasks i t TState.reaped h1]
      exact hi.taskKeys
    · intro k' hk'
      have hold := hi.queueFresh k' hk'
      refine ⟨?_, ?_⟩
      · intro t' ht'
        rcases List.mem_or_eq_of_mem_set ht' with holdm | hnew
        · exact hold.1 t' holdm
        · rw [hnew]
          exact hold.1 t htmem
      · rw [findJob_setStatus_ne s.jobs t.key k' (JStatus.failed msg)
          (fun hc => (hold.1 t htmem) hc.symm)]
        exact hold.2
    · rw [map_key_setStatus]
      exact hi.jobKeys
  | cbCancel i t h1 h2 =>
    have htmem : t ∈ s.tasks := List.getElem?_mem h1
    have hsum : (eraseActive s.active t.key).length +
        stuckOf s.jobs (eraseActive s.active t.key) ≤
        s.active.length + stuckOf s.jobs s.active := by
      by_cases htr : s.active.any (fun p => p.1 == t.key) = true
      · have hAlt := length_eraseActive_lt s.active t.key htr
        have hSle := stuckOf_erase_le s.jobs s.active t.key
        have hcnt := countP_key_le_one s.jobs t.key hi.jobKeys
        omega
      · rw [eraseActive_of_not_tracked s.active t.key
          (Bool.not_eq_true _ |>.mp htr)]
    refine ⟨?_, ?_, ?_, ?_, ?_, ?_, ?_, ?_, hi.queueNodup, hi.jobKeys⟩
    · show (eraseActive s.active t.key).length +
        stuckOf s.jobs (eraseActive s.active t.key) ≤ maxC
      have hbase : s.active.length + stuckOf s.jobs s.active ≤ maxC := hi.sumLe
      omega
    · intro hpc
      have hbase : s.active.length + stuckOf s.jobs s.active + 1 ≤ maxC :=
        hi.waitingLt hpc
      show (eraseActive s.active t.key).length +
        stuckOf s.jobs (eraseActive s.active t.key) + 1 ≤ maxC
      omega
    · intro hrun
      exact absurd h2 (hi.noCancel hrun t htmem)
    · intro hrun
      exact absurd h2 (hi.noCancel hrun t htmem)
    · intro t' ht' hst
      rcases List.mem_or_eq_of_mem_set ht' with hold | hnew
      · exact hi.doneOkDone t' hold hst
      · rw [hnew] at hst
        cases hst
    · intro t' ht'
      rcases List.mem_or_eq_of_mem_set ht' with hold | hnew
      · exact hi.genCur t' hold
      · rw [hnew]
        exact hi.genCur t htmem
    · show ((s.tasks.set i { t with st := TState.reaped }).map
        (fun t => t.key)).Nodup
      rw [map_key_set_st s.tasks i t TState.reaped h1]
      exact hi.taskKeys
    · intro k' hk'
      have hold := hi.queueFresh k' hk'
      refine ⟨?_, hold.2⟩
      intro t' ht'
      rcases List.mem_or_eq_of_mem_set ht' with holdm | hnew
      · exact hold.1 t' holdm
      · rw [hnew]
        exact hold.1 t htmem
  | stopE =>
    refine ⟨hi.sumLe, hi.waitingLt, ?_, ?_, ?_, ?_, ?_, ?_, hi.queueNodup,
      hi.jobKeys⟩
    · intro hrun
      cases hrun
    · intro hrun
      cases hrun
    · intro t' ht' hst
      rcases mem_cancelFrom s.active s.tasks 0 t' ht' with
        ⟨t0, ht0, hkey, _, hcase⟩
      rcases hcase with heq | ⟨_, hmod⟩
      · rw [heq] at hst
        rw [hkey]
        exact hi.doneOkDone t0 ht0 hst
      · rw [hmod] at hst
        cases hst
    · intro t' ht'
      rcases mem_cancelFrom s.active s.tasks 0 t' ht' with
        ⟨t0, ht0, hkey, hgen, _⟩
      rcases hi.genCur t0 ht0 with ⟨j, hj, hg⟩
      refine ⟨j, ?_, ?_⟩
      · rw [hkey]
        exact hj
      · rw [hgen, hg]
    · show ((cancelTasks s.tasks s.active).map (fun t => t.key)).Nodup
      unfold cancelTasks
      rw [map_key_cancelFrom]
      exact hi.taskKeys
    · intro k' hk'
      have hold := hi.queueFresh k' hk'
      refine ⟨?_, hold.2⟩
      intro t' ht'
      rcases mem_cancelFrom s.active s.tasks 0 t' ht' with
        ⟨t0, ht0, hkey, _, _⟩
      rw [hkey]
      exact hold.1 t0 ht0

/-- Every state reachable along a collision-free run satisfies the
invariant. -/
theorem reachU_inv {maxC : ℕ} {s : SState} (h : ReachU maxC s) :
    SchedInv maxC s := by
  induction h with
  | init => exact schedInv_init maxC
  | step hr hs hf ih => exact schedInv_step hs hf ih

/-- Tracked Processing jobs are no more numerous than the tracking dict. -/
theorem trackedProcessing_le (s : SState)
    (hnd : (s.jobs.map (fun j => j.key)).Nodup) :
    s.jobs.countP (fun j => isProcessing j.status &&
      s.active.any (fun p => p.1 == j.key)) ≤ s.active.length := by
  rw [List.countP_eq_length_filter]
  have hsub : (s.jobs.filter (fun j => isProcessing j.status &&
      s.active.any (fun p => p.1 == j.key))).Sublist s.jobs :=
    List.filter_sublist s.jobs
  have hndF : ((s.jobs.filter (fun j => isProcessing j.status &&
      s.active.any (fun p => p.1 == j.key))).map (fun j => j.key)).Nodup :=
    List.Nodup.sublist (hsub.map _) hnd
  have hsubset : ∀ x ∈ (s.jobs.filter (fun j => isProcessing j.status &&
      s.active.any (fun p => p.1 == j.key))).map (fun j => j.key),
      x ∈ s.active.map (fun p => p.1) := by
    intro x hx
    rcases List.mem_map.mp hx with ⟨j, hjF, hk⟩
    have hpred := List.of_mem_filter hjF
    have hany : s.active.any (fun p => p.1 == j.key) = true :=
      ((Bool.and_eq_true _ _).mp hpred).2
    rcases List.any_eq_true.mp hany with ⟨p, hp, hpk⟩
    refine List.mem_map.mpr ⟨p, hp, ?_⟩
    rw [← hk]
    simpa using hpk
  calc (s.jobs.filter (fun j => isProcessing j.status &&
        s.active.any (fun p => p.1 == j.key))).length
      = ((s.jobs.filter (fun j => isProcessing j.status &&
          s.active.any (fun p => p.1 == j.key))).map
            (fun j => j.key)).length := by rw [List.length_map]
    _ = ((s.jobs.filter (fun j => isProcessing j.status &&
          s.active.any (fun p => p.1 == j.key))).map
            (fun j => j.key)).toFinset.card :=
        (List.toFinset_card_of_nodup hndF).symm
    _ ≤ (s.active.map (fun p => p.1)).toFinset.card := by
        apply Finset.card_le_card
        intro x hx
        rw [List.mem_toFinset] at *
        exact hsubset x hx
    _ ≤ (s.active.map (fun p => p.1)).length := List.toFinset_card_le _
    _ = s.active.length := List.length_map _ _

/-- The invariant bounds the number of Processing jobs. -/
theorem processingCount_le_of_inv {maxC : ℕ} {s : SState}
    (hinv : SchedInv maxC s) : processingCount s ≤ maxC := by
  have hsplit := countP_split (fun j => isProcessing j.status)
    (fun j => s.active.any (fun p => p.1 == j.key)) s.jobs
  have hPT := trackedProcessing_le s hinv.jobKeys
  have hS : s.jobs.countP (fun j => isProcessing j.status &&
      !(s.active.any (fun p => p.1 == j.key))) = stuckCount s := rfl
  have hsum := hinv.sumLe
  unfold processingCount
  omega

/-- C1 (amended): provided every submission is assigned a fresh `job_id`
(no collision of requester, second and url-hash salt — see C2), the
number of jobs simultaneously in `PROCESSING` status never exceeds
`max_concurrent`: the dispatch loop only dispatches below the tracked
ceiling, completed executions are removed from tracking, and with unique
ids the tracking dict never loses a live execution.  With a collision
the bound can fail (see the counterexample). -/
theorem c1_processing_bounded (maxC : ℕ) (s : SState)
    (h : ReachU maxC s) : processingCount s ≤ maxC :=
  processingCount_le_of_inv (reachU_inv h)

/-- Witness for C1 (amended): a fresh-id run that submits job 5 and
dispatches it; one job is Processing, below the ceiling 2. -/
theorem c1_processing_bounded_witness :
    processingCount
      ⟨true, PC.check, [⟨5, 1, JStatus.processing⟩], [], [(5, 0)],
        [⟨5, 1, TState.running⟩]⟩ ≤ 2 := by
  apply c1_processing_bounded
  have h0 : ReachU 2 init := ReachU.init
  have h1 := ReachU.step h0 (Step.submit init 5) rfl
  have h2 := ReachU.step h1 (Step.loopEnter _ rfl rfl (by decide)) trivial
  have h3 := ReachU.step h2 (Step.dispatch _ 5 [] rfl (by decide) (by decide))
    trivial
  exact h3

/-- Counterexample to C1 as stated: with `max_concurrent = 2`, submitting
the same (requester, second, url-hash) twice — a `job_id` collision, see
C2 — makes the stale task's completion callback `active_tasks.pop` untrack
the live duplicate execution, after which the loop dispatches two more
jobs: three jobs are simultaneously in `PROCESSING` status. -/
theorem c1_counterexample :
    ∃ (s : SState), Reach 2 s ∧ 2 < processingCount s := by
  have h0 : Reach 2 init := Reach.init
  have h1 := Reach.step h0 (Step.submit init 1)
  have h2 := Reach.step h1 (Step.loopEnter _ rfl rfl (by decide))
  have h3 := Reach.step h2 (Step.dispatch _ 1 [] rfl (by decide) (by decide))
  have h4 := Reach.step h3 (Step.submit _ 1)
  have h5 := Reach.step h4 (Step.loopEnter _ rfl rfl (by decide))
  have h6 := Reach.step h5 (Step.dispatch _ 1 [] rfl (by decide) (by decide))
  have h7 := Reach.step h6 (Step.submit _ 2)
  have h8 := Reach.step h7 (Step.submit _ 3)
  have h9 := Reach.step h8 (Step.loopEnter _ rfl rfl (by decide))
  have h10 := Reach.step h9
    (Step.dispatch _ 2 [3] rfl (by decide) (by decide))
  have h11 := Reach.step h10
    (Step.bodyOk _ 0 ⟨1, 1, TState.running⟩ (by decide) rfl)
  have h12 := Reach.step h11
    (Step.cbOk _ 0 ⟨1, 1, TState.doneOk⟩ (by decide) rfl)
  have h13 := Reach.step h12 (Step.loopEnter _ rfl rfl (by decide))
  have h14 := Reach.step h13
    (Step.dispatch _ 3 [] rfl (by decide) (by decide))
  exact ⟨_, h14, by decide⟩

/-- C7 (amended): when the done-callback `_task_done` runs for a task
whose execution raised `msg`, the job's record is set to `FAILED` and its
`error_message` field receives the error's full string representation —
exactly `str(task.exception())`, captured verbatim (truncation to at most
100/200 characters happens only at the chat boundary in `bot.py`, not in
the scheduler) — and nothing is thrown across the scheduler boundary:
`add_job` remains enabled afterwards, submitters only observe the failure
by polling. -/
theorem c7_failure_captured (maxC : ℕ) (s s' : SState) (i : ℕ)
    (t : TaskRec) (msg : String) (hstep : Step maxC s (.callback i) s')
    (ht : s.tasks[i]? = some t) (hst : t.st = .doneErr msg)
    (j : JobRec) (hj : findJob s.jobs t.key = some j) :
    findJob s'.jobs t.key = some { j with status := .failed msg } ∧
    s'.queue = s.queue ∧
    (∀ k, Step maxC s' (.submit k)
      { s' with jobs := bumpJob s'.jobs k, queue := s'.queue ++ [k] }) := by
  cases hstep with
  | cbOk i t' h1 h2 =>
    rw [ht] at h1
    injection h1 with h1
    rw [← h1] at h2
    rw [hst] at h2
    cases h2
  | cbErr i t' msg' h1 h2 =>
    rw [ht] at h1
    injection h1 with h1
    rw [← h1] at h2
    rw [hst] at h2
    injection h2 with hmsg
    refine ⟨?_, rfl, fun k => Step.submit _ k⟩
    show findJob (setStatus s.jobs t'.key (JStatus.failed msg')) t.key =
      some { j with status := JStatus.failed msg }
    rw [← h1, ← hmsg]
    exact findJob_setStatus_self s.jobs t.key (JStatus.failed msg) j hj
  | cbCancel i t' h1 h2 =>
    rw [ht] at h1
    injection h1 with h1
    rw [← h1] at h2
    rw [hst] at h2
    cases h2

/-- Witness for C7 at a concrete failed task: job 5's execution raised
"boom"; after the callback the record reads `FAILED` with the message
stored verbatim. -/
theorem c7_failure_captured_witness :
    findJob (setStatus [⟨5, 1, JStatus.processing⟩] 5 (JStatus.failed "boom"))
        5 = some ⟨5, 1, JStatus.failed "boom"⟩ := by
  have h := c7_failure_captured 2
    ⟨false, PC.check, [⟨5, 1, JStatus.processing⟩], [], [(5, 0)],
      [⟨5, 1, TState.doneErr "boom"⟩]⟩
    ⟨false, PC.check,
      setStatus [⟨5, 1, JStatus.processing⟩] 5 (JStatus.failed "boom"), [],
      eraseActive [(5, 0)] 5,
      [⟨5, 1, TState.doneErr "boom"⟩].set 0 ⟨5, 1, TState.reaped⟩⟩
    0 ⟨5, 1, TState.doneErr "boom"⟩ "boom"
    (Step.cbErr _ 0 ⟨5, 1, TState.doneErr "boom"⟩ "boom" rfl rfl)
    rfl rfl ⟨5, 1, JStatus.processing⟩ rfl
  exact h.1

set_option maxRecDepth 4000 in
/-- Counterexample to C7 as stated ("a truncated human-readable error
message"): an execution that raises a 300-character message gets the full
300-character string stored in the job's `error_message` — the scheduler
applies no truncation at all. -/
theorem c7_counterexample :
    ∃ (s s' : SState) (msg : String), Reach 2 s ∧
      Step 2 s (Lab.callback 0) s' ∧ msg.length = 300 ∧
      findJob s'.jobs 1 = some ⟨1, 1, JStatus.failed msg⟩ := by
  have h0 : Reach 2 init := Reach.init
  have h1 := Reach.step h0 (Step.submit init 1)
  have h2 := Reach.step h1 (Step.loopEnter _ rfl rfl (by decide))
  have h3 := Reach.step h2 (Step.dispatch _ 1 [] rfl (by decide) (by decide))
  have h4 := Reach.step h3 (Step.bodyErr _ 0 ⟨1, 1, TState.running⟩
    (String.mk (List.replicate 300 'x')) (by decide) rfl)
  refine ⟨_, _, String.mk (List.replicate 300 'x'), h4,
    Step.cbErr _ 0 ⟨1, 1, TState.doneErr (String.mk (List.replicate 300 'x'))⟩
      (String.mk (List.replicate 300 'x')) rfl rfl, ?_, ?_⟩
  · show (List.replicate 300 'x').length = 300
    rw [List.length_replicate]
  · rfl

/-- Number of `PENDING → PROCESSING` dispatches in a trace. -/
def dispatchCount (ls : List Lab) : ℕ :=
  ls.countP (fun l => l == Lab.dispatch)

/-- Once `stop()` has cleared the running flag it stays cleared. -/
theorem step_preserves_stopped {maxC : ℕ} {s s' : SState} {l : Lab}
    (hs : Step maxC s l s') (h : s.running = false) : s'.running = false := by
  cases hs with
  | submit k => exact h
  | loopEnter h1 h2 h3 => rw [h] at h2; cases h2
  | loopExit h1 h2 => exact h
  | wtimeout h1 => exact h
  | dispatch k rest h1 h2 h3 => exact h
  | ghostDispatch k rest h1 h2 h3 => exact h
  | bodyOk i t h1 h2 => exact h
  | bodyErr i t msg h1 h2 => exact h
  | cbOk i t h1 h2 => exact h
  | cbErr i t msg h1 h2 => exact h
  | cbCancel i t h1 h2 => exact h
  | stopE => rfl

/-- After `stop()`, once the dispatch loop is no longer suspended in the
dequeue `await`, it can never get back there. -/
theorem step_preserves_not_waiting {maxC : ℕ} {s s' : SState} {l : Lab}
    (hs : Step maxC s l s') (hrun : s.running = false)
    (hpc : s.pc ≠ .waiting) : s'.pc ≠ .waiting := by
  cases hs with
  | submit k => exact hpc
  | loopEnter h1 h2 h3 => rw [hrun] at h2; cases h2
  | loopExit h1 h2 => simp
  | wtimeout h1 => exact absurd h1 hpc
  | dispatch k rest h1 h2 h3 => exact absurd h1 hpc
  | ghostDispatch k rest h1 h2 h3 => exact absurd h1 hpc
  | bodyOk i t h1 h2 => exact hpc
  | bodyErr i t msg h1 h2 => exact hpc
  | cbOk i t h1 h2 => exact hpc
  | cbErr i t msg h1 h2 => exact hpc
  | cbCancel i t h1 h2 => exact hpc
  | stopE => exact hpc

/-- After `stop()`, with the loop away from the dequeue `await`, no
dispatch ever happens again. -/
theorem dispatchCount_zero {maxC : ℕ} :
    ∀ {s s' : SState} {ls : List Lab}, Trace maxC s ls s' →
      s.running = false → s.pc ≠ .waiting → dispatchCount ls = 0 := by
  intro s s' ls htr
  induction htr with
  | nil => intro _ _; rfl
  | cons h1 h2 ih =>
    intro hrun hpc
    have hrun' := step_preserves_stopped h1 hrun
    have hpc' := step_preserves_not_waiting h1 hrun hpc
    unfold dispatchCount at *
    rw [List.countP_cons]
    have hlab : ∀ lab, lab ≠ Lab.dispatch →
        (lab == Lab.dispatch) = false := by
      intro lab hl
      simpa using hl
    cases h1 with
    | submit k => simpa using ih hrun' hpc'
    | loopEnter ha hb hc => rw [hrun] at hb; cases hb
    | loopExit ha hb => simpa using ih hrun' hpc'
    | wtimeout ha => exact absurd ha hpc
    | dispatch k rest ha hb hc => exact absurd ha hpc
    | ghostDispatch k rest ha hb hc => exact absurd ha hpc
    | bodyOk i t ha hb => simpa using ih hrun' hpc'
    | bodyErr i t msg ha hb => simpa using ih hrun' hpc'
    | cbOk i t ha hb => simpa using ih hrun' hpc'
    | cbErr i t msg ha hb => simpa using ih hrun' hpc'
    | cbCancel i t ha hb => simpa using ih hrun' hpc'
    | stopE => simpa using ih hrun' hpc'

/-- After `stop()` clears the running flag, at most one further dispatch
— a dequeue already past the loop's `while self._running` check — can
occur in the entire remaining execution. -/
theorem dispatchCount_le_one {maxC : ℕ} :
    ∀ {s s' : SState} {ls : List Lab}, Trace maxC s ls s' →
      s.running = false → dispatchCount ls ≤ 1 := by
  intro s s' ls htr
  induction htr with
  | nil => intro _; simp [dispatchCount]
  | cons h1 h2 ih =>
    intro hrun
    unfold dispatchCount
    rw [List.countP_cons]
    cases h1 with
    | submit k =>
      have hrest := ih hrun
      unfold dispatchCount at hrest
      have hlab : (Lab.submit k == Lab.dispatch) = false := rfl
      rw [hlab]
      simpa using hrest
    | loopEnter ha hb hc =>
      rw [hrun] at hb
      cases hb
    | loopExit ha hb =>
      have hrest := ih hrun
      unfold dispatchCount at hrest
      have hlab : (Lab.loopExit == Lab.dispatch) = false := rfl
      rw [hlab]
      simpa using hrest
    | wtimeout ha =>
      have hrest := ih hrun
      unfold dispatchCount at hrest
      have hlab : (Lab.wtimeout == Lab.dispatch) = false := rfl
      rw [hlab]
      simpa using hrest
    | dispatch k rest ha hb hc =>
      have hz := dispatchCount_zero h2 hrun (by simp)
      unfold dispatchCount at hz
      rw [hz]
      simp
    | ghostDispatch k rest ha hb hc =>
      have hrest := ih hrun
      unfold dispatchCount at hrest
      have hlab : (Lab.ghostDispatch == Lab.dispatch) = false := rfl
      rw [hlab]
      simpa using hrest
    | bodyOk i t ha hb =>
      have hrest := ih hrun
      unfold dispatchCount at hrest
      have hlab : (Lab.bodyOk i == Lab.dispatch) = false := rfl
      rw [hlab]
      simpa using hrest
    | bodyErr i t msg ha hb =>
      have hrest := ih hrun
      unfold dispatchCount at hrest
      have hlab : (Lab.bodyErr i msg == Lab.dispatch) = false := rfl
      rw [hlab]
      simpa using hrest
    | cbOk i t ha hb =>
      have hrest := ih hrun
      unfold dispatchCount at hrest
      have hlab : (Lab.callback i == Lab.dispatch) = false := rfl
      rw [hlab]
      simpa using hrest
    | cbErr i t msg ha hb =>
      have hrest := ih hrun
      unfold dispatchCount at hrest
      have hlab : (Lab.callback i == Lab.dispatch) = false := rfl
      rw [hlab]
      simpa using hrest
    | cbCancel i t ha hb =>
      have hrest := ih hrun
      unfold dispatchCount at hrest
      have hlab : (Lab.callback i == Lab.dispatch) = false := rfl
      rw [hlab]
      simpa using hrest
    | stopE =>
      have hrest := ih rfl
      unfold dispatchCount at hrest
      have hlab : (Lab.stopE == Lab.dispatch) = false := rfl
      rw [hlab]
      simpa using hrest

/-- C8 (amended): `stop()` clears the running flag, leaves every job
record — including Pending ones — and the intake queue untouched (still
queryable), and cancels every tracked running execution; afterwards at
most ONE further Pending→Processing dispatch can occur (a dequeue whose
`await` was already pending when `stop()` ran; the loop re-checks
`self._running` only at the top of its `while`), and cancelled
executions never reach a terminal job status (see the counterexample). -/
theorem c8_stop_semantics (maxC : ℕ) (s s' : SState)
    (hstep : Step maxC s .stopE s') :
    s'.running = false ∧ s'.jobs = s.jobs ∧ s'.queue = s.queue ∧
    (∀ p ∈ s.active, ∀ t : TaskRec, s.tasks[p.2]? = some t →
      t.st = .running → s'.tasks[p.2]? = some { t with st := .cancelledT }) ∧
    (∀ (ls : List Lab) (s'' : SState), Trace maxC s' ls s'' →
      dispatchCount ls ≤ 1) := by
  cases hstep with
  | stopE =>
    refine ⟨rfl, rfl, rfl, ?_, ?_⟩
    · intro p hp t ht hrunning
      show (cancelTasks s.tasks s.active)[p.2]? = some { t with st := .cancelledT }
      unfold cancelTasks
      rw [getElem?_cancelFrom, ht]
      have hany : s.active.any (fun q => q.2 == 0 + p.2) = true := by
        refine List.any_eq_true.mpr ⟨p, hp, ?_⟩
        simp
      rw [Option.map_some']
      rw [if_pos]
      rw [hany, hrunning]
      simp
    · intro ls s'' htr
      exact dispatchCount_le_one htr rfl

/-- Witness for C8 (amended) at the initial state: stopping an idle
manager clears the flag, changes no job record, and allows at most one
further dispatch. -/
theorem c8_stop_semantics_witness :
    (SState.mk false PC.check [] [] [] []).running = false ∧
    (SState.mk false PC.check [] [] [] []).jobs = init.jobs ∧
    (SState.mk false PC.check [] [] [] []).queue = init.queue ∧
    (∀ p ∈ init.active, ∀ t : TaskRec, init.tasks[p.2]? = some t →
      t.st = .running →
      (SState.mk false PC.check [] [] [] []).tasks[p.2]? =
        some { t with st := TState.cancelledT }) ∧
    (∀ (ls : List Lab) (s'' : SState),
      Trace 2 (SState.mk false PC.check [] [] [] []) ls s'' →
      dispatchCount ls ≤ 1) :=
  c8_stop_semantics 2 init ⟨false, PC.check, [], [], [], []⟩ (Step.stopE init)

/-- Counterexample to C8 as stated: (a) after `stop()` begins, a job can
still go Pending→Processing — the dispatch loop, already suspended in
`queue.get()`, does not re-check `self._running` before dispatching; and
(b) a cancelled active execution is removed from tracking but its job
record stays `PROCESSING` forever (never a terminal state), because
`_task_done`'s `task.exception()` raises for cancelled tasks before the
`FAILED` write. -/
theorem c8_counterexample :
    ∃ (s s' : SState), Reach 2 s ∧ s.running = false ∧
      Step 2 s Lab.dispatch s' ∧
      findJob s.jobs 1 = some ⟨1, 1, JStatus.pending⟩ ∧
      findJob s'.jobs 1 = some ⟨1, 1, JStatus.processing⟩ ∧
      (∃ (s2 s3 : SState), Reach 2 s2 ∧ Step 2 s2 (Lab.callback 0) s3 ∧
        s3.running = false ∧ s3.active = [] ∧
        (∀ t ∈ s3.tasks, t.st = TState.reaped) ∧
        findJob s3.jobs 2 = some ⟨2, 1, JStatus.processing⟩) := by
  have h0 : Reach 2 init := Reach.init
  have h1 := Reach.step h0 (Step.submit init 1)
  have h2 := Reach.step h1 (Step.loopEnter _ rfl rfl (by decide))
  have h3 := Reach.step h2 (Step.stopE _)
  refine ⟨_, _, h3, rfl,
    Step.dispatch _ 1 [] rfl (by decide) (by decide), by decide, by decide,
    ?_⟩
  have g1 := Reach.step h0 (Step.submit init 2)
  have g2 := Reach.step g1 (Step.loopEnter _ rfl rfl (by decide))
  have g3 := Reach.step g2 (Step.dispatch _ 2 [] rfl (by decide) (by decide))
  have g4 := Reach.step g3 (Step.stopE _)
  refine ⟨_, _, g4,
    Step.cbCancel _ 0 ⟨2, 1, TState.cancelledT⟩ (by decide) rfl,
    rfl, by decide, by decide, by decide⟩
